import Mathlib

/-!
Verification development for the Hako end-to-end encrypted file sharing
service.  The definitions below are a shallow embedding of

  * the client streaming-AEAD pipeline (`webapp/src/upload.rs`,
    `webapp/src/download.rs`, `webapp/src/utils.rs`), and
  * the server chunk store handlers and GC worker
    (`server/src/handlers.rs`, `server/src/workers.rs`).

Bytes are modelled as `List Nat`; each entry stands for one octet, and
lemmas that depend on the 8-bit range state it as an explicit hypothesis.
The XChaCha20-Poly1305 primitive and the HKDF key-derivation function are
third-party library calls; they are modelled as abstract parameters: an
`Aead` record of an encrypt and a decrypt function (with the standard AEAD
laws as separate hypotheses) and an arbitrary deterministic
`hkdf : Bytes → Bytes → Bytes`.  Everything the repository itself
implements (block framing, counters, wire validation, SQL effects) is
translated directly.
-/

namespace Hako

abbrev Bytes := List Nat

/-- `BLOCK_SIZE` from `webapp/src/utils.rs`: 10 MiB of plaintext per block. -/
def BLOCK_SIZE : Nat := 1024 * 1024 * 10

/-- `BLOCK_OVERHEAD` from `webapp/src/utils.rs`: the 16-byte Poly1305 tag. -/
def BLOCK_OVERHEAD : Nat := 16

/-- Big-endian 32-bit counter bytes, as used by the BE32 streaming AEAD
construction (`aead::stream::EncryptorBE32` / `DecryptorBE32`). -/
def be32 (n : Nat) : Bytes :=
  [n / 2 ^ 24 % 256, n / 2 ^ 16 % 256, n / 2 ^ 8 % 256, n % 256]

/-- Per-block nonce of the BE32 streaming construction: the 19-byte stream
nonce, followed by the big-endian 32-bit block counter, followed by one
last-block flag byte. -/
def streamNonce (n19 : Bytes) (ctr : Nat) (last : Bool) : Bytes :=
  n19 ++ be32 ctr ++ [if last then 1 else 0]

/-- Abstract one-shot AEAD (XChaCha20-Poly1305 in the implementation):
`enc key nonce msg` and `dec key nonce ct`. -/
structure Aead where
  enc : Bytes → Bytes → Bytes → Bytes
  dec : Bytes → Bytes → Bytes → Option Bytes

/-- The two AEAD facts the pipeline relies on: decryption inverts
encryption under the same key and nonce, and the ciphertext is exactly
16 bytes (the tag) longer than the plaintext. -/
structure LawfulAead (A : Aead) : Prop where
  round : ∀ k n m, A.dec k n (A.enc k n m) = some m
  len : ∀ k n m, (A.enc k n m).length = m.length + 16

/-! ### Block framing, list-level spec helpers

`chunksOf b l` is the list of successive complete `b`-byte blocks of `l`;
`remOf b l` is the residual (length `< b`).  These are the reference
shapes against which the buffered streaming loops of `upload.rs` and
`download.rs` are proved. -/

def chunksOf (b : Nat) (l : Bytes) : List Bytes :=
  if 0 < b ∧ b ≤ l.length then l.take b :: chunksOf b (l.drop b) else []
termination_by l.length
decreasing_by
  simp only [List.length_drop]
  omega

def remOf (b : Nat) (l : Bytes) : Bytes :=
  if 0 < b ∧ b ≤ l.length then remOf b (l.drop b) else l
termination_by l.length
decreasing_by
  simp only [List.length_drop]
  omega

theorem chunksOf_eq_cons (b : Nat) (l : Bytes) (h : 0 < b ∧ b ≤ l.length) :
    chunksOf b l = l.take b :: chunksOf b (l.drop b) := by
  rw [chunksOf, if_pos h]

theorem chunksOf_eq_nil (b : Nat) (l : Bytes) (h : ¬(0 < b ∧ b ≤ l.length)) :
    chunksOf b l = [] := by
  rw [chunksOf, if_neg h]

theorem remOf_eq_drop (b : Nat) (l : Bytes) (h : 0 < b ∧ b ≤ l.length) :
    remOf b l = remOf b (l.drop b) := by
  conv_lhs => rw [remOf, if_pos h]

theorem remOf_eq_self (b : Nat) (l : Bytes) (h : ¬(0 < b ∧ b ≤ l.length)) :
    remOf b l = l := by
  conv_lhs => rw [remOf, if_neg h]

theorem chunksOf_flatten_rem (b : Nat) (l : Bytes) :
    (chunksOf b l).flatten ++ remOf b l = l := by
  induction l using chunksOf.induct b with
  | case1 l h ih =>
    rw [chunksOf, if_pos h, remOf, if_pos h]
    simp only [List.flatten_cons]
    rw [List.append_assoc, ih, List.take_append_drop]
  | case2 l h =>
    rw [chunksOf, if_neg h, remOf, if_neg h]
    simp

theorem chunksOf_length (b : Nat) (l : Bytes) (hb : 0 < b) :
    (chunksOf b l).length = l.length / b := by
  induction l using chunksOf.induct b with
  | case1 l h ih =>
    rw [chunksOf, if_pos h]
    simp only [List.length_cons, ih, List.length_drop]
    rw [Nat.div_eq_sub_div hb h.2]
  | case2 l h =>
    rw [chunksOf, if_neg h]
    have : l.length < b := by
      rcases Nat.lt_or_ge l.length b with h' | h'
      · exact h'
      · exact absurd ⟨hb, h'⟩ h
    simp [Nat.div_eq_of_lt this]

theorem remOf_length (b : Nat) (l : Bytes) (hb : 0 < b) :
    (remOf b l).length = l.length % b := by
  induction l using remOf.induct b with
  | case1 l h ih =>
    rw [remOf, if_pos h, ih, List.length_drop, Nat.mod_eq_sub_mod h.2]
  | case2 l h =>
    rw [remOf, if_neg h]
    have : l.length < b := by
      rcases Nat.lt_or_ge l.length b with h' | h'
      · exact h'
      · exact absurd ⟨hb, h'⟩ h
    rw [Nat.mod_eq_of_lt this]

theorem remOf_length_lt (b : Nat) (l : Bytes) (hb : 0 < b) :
    (remOf b l).length < b := by
  rw [remOf_length b l hb]
  exact Nat.mod_lt _ hb

theorem chunksOf_mem_length (b : Nat) (l : Bytes) (c : Bytes)
    (hc : c ∈ chunksOf b l) : c.length = b := by
  induction l using chunksOf.induct b with
  | case1 l h ih =>
    rw [chunksOf, if_pos h] at hc
    rcases List.mem_cons.mp hc with h' | h'
    · rw [h', List.length_take]
      omega
    · exact ih h'
  | case2 l h =>
    rw [chunksOf, if_neg h] at hc
    simp at hc

theorem chunksOf_append (b : Nat) (l₁ l₂ : Bytes) (hb : 0 < b) :
    chunksOf b (l₁ ++ l₂) = chunksOf b l₁ ++ chunksOf b (remOf b l₁ ++ l₂) := by
  induction l₁ using chunksOf.induct b with
  | case1 l₁ h ih =>
    have hlen : b ≤ (l₁ ++ l₂).length := by
      rw [List.length_append]; omega
    have htake : (l₁ ++ l₂).take b = l₁.take b := by
      rw [List.take_append_eq_append_take, Nat.sub_eq_zero_of_le h.2]
      simp
    have hdrop : (l₁ ++ l₂).drop b = l₁.drop b ++ l₂ := by
      rw [List.drop_append_eq_append_drop, Nat.sub_eq_zero_of_le h.2]
      simp
    rw [chunksOf_eq_cons b (l₁ ++ l₂) ⟨hb, hlen⟩, chunksOf_eq_cons b l₁ h,
      remOf_eq_drop b l₁ h, htake, hdrop, List.cons_append, ih]
  | case2 l₁ h =>
    rw [chunksOf_eq_nil b l₁ h, remOf_eq_self b l₁ h]
    simp

theorem remOf_append (b : Nat) (l₁ l₂ : Bytes) (hb : 0 < b) :
    remOf b (l₁ ++ l₂) = remOf b (remOf b l₁ ++ l₂) := by
  induction l₁ using remOf.induct b with
  | case1 l₁ h ih =>
    have hlen : b ≤ (l₁ ++ l₂).length := by
      rw [List.length_append]; omega
    have hdrop : (l₁ ++ l₂).drop b = l₁.drop b ++ l₂ := by
      rw [List.drop_append_eq_append_drop, Nat.sub_eq_zero_of_le h.2]
      simp
    rw [remOf_eq_drop b (l₁ ++ l₂) ⟨hb, hlen⟩, remOf_eq_drop b l₁ h, hdrop, ih]
  | case2 l₁ h =>
    rw [remOf_eq_self b l₁ h]

/-- A flattened list of complete `b`-blocks followed by a short residue
chunks back to exactly those blocks. -/
theorem chunksOf_flatten_blocks (b : Nat) (L : List Bytes) (r : Bytes)
    (hb : 0 < b) (hL : ∀ c ∈ L, c.length = b) (hr : r.length < b) :
    chunksOf b (L.flatten ++ r) = L ∧ remOf b (L.flatten ++ r) = r := by
  induction L with
  | nil =>
    simp only [List.flatten_nil, List.nil_append]
    constructor
    · rw [chunksOf, if_neg]
      intro hcon
      omega
    · rw [remOf, if_neg]
      intro hcon
      omega
  | cons c L ih =>
    have hc : c.length = b := hL c (List.mem_cons_self c L)
    have hrest : ∀ x ∈ L, x.length = b := fun x hx => hL x (List.mem_cons_of_mem c hx)
    have ⟨ih1, ih2⟩ := ih hrest
    simp only [List.flatten_cons, List.append_assoc]
    have hlen : b ≤ (c ++ (L.flatten ++ r)).length := by
      rw [List.length_append]; omega
    have htake : (c ++ (L.flatten ++ r)).take b = c := by
      rw [← hc]; exact List.take_left c (L.flatten ++ r)
    have hdrop : (c ++ (L.flatten ++ r)).drop b = L.flatten ++ r := by
      rw [← hc]; exact List.drop_left c (L.flatten ++ r)
    constructor
    · rw [chunksOf, if_pos ⟨hb, hlen⟩, htake, hdrop, ih1]
    · rw [remOf, if_pos ⟨hb, hlen⟩, hdrop, ih2]

/-! ### Client upload pipeline (`webapp/src/upload.rs`, `encrypt_routine`)

The browser delivers the file as a stream of byte arrays (`pieces`).  The
routine keeps a buffer of capacity `BLOCK_SIZE`; whenever
`buffer.len() + v.len() >= BLOCK_SIZE` it encrypts one full block with
`encrypt_next` (counter `ctr`, last flag 0) and posts it; at end of
stream it encrypts the residual buffer with `encrypt_last`.  `encFeed`
is the inner `while` loop for one arriving piece `v`; the first conjunct
of its guard (`buffer.length < b`) is the standing loop invariant of the
source (the buffer is drained as soon as it reaches `BLOCK_SIZE`), made
explicit so that the recursion is well-founded. -/

def encFeed (A : Aead) (key n19 : Bytes) (b : Nat) (ctr : Nat)
    (buffer v : Bytes) : List Bytes × Nat × Bytes :=
  if buffer.length < b ∧ b ≤ buffer.length + v.length then
    let split := b - buffer.length
    let c := A.enc key (streamNonce n19 ctr false) (buffer ++ v.take split)
    let r := encFeed A key n19 b (ctr + 1) [] (v.drop split)
    (c :: r.1, r.2)
  else ([], ctr, buffer ++ v)
termination_by v.length
decreasing_by
  simp only [List.length_drop]
  omega

/-- The outer `while let Some(v) = fut.try_next()` loop: fold `encFeed`
over the arriving pieces, threading the stream counter and the buffer. -/
def encPieces (A : Aead) (key n19 : Bytes) (b : Nat) (ctr : Nat)
    (buffer : Bytes) : List Bytes → List Bytes × Nat × Bytes
  | [] => ([], ctr, buffer)
  | v :: rest =>
    let r := encFeed A key n19 b ctr buffer v
    let r2 := encPieces A key n19 b r.2.1 r.2.2 rest
    (r.1 ++ r2.1, r2.2)

/-- One `upload` POST of the client: the multipart fields `id`, `seq`,
`is_last`, `content`. -/
structure UploadReq where
  id : Int
  seq : Int
  isLast : Bool
  content : Bytes
deriving DecidableEq

/-- The full sequence of `upload` requests issued by `encrypt_routine`
for one file: one non-last request per complete block (seq starting at 1,
`is_last = [0]`), then the `encrypt_last` request over the residual
buffer with `is_last = [1]`. -/
def clientUploadReqs (A : Aead) (key n19 : Bytes) (idI : Int)
    (pieces : List Bytes) : List UploadReq :=
  let r := encPieces A key n19 BLOCK_SIZE 0 [] pieces
  let lastC := A.enc key (streamNonce n19 r.2.1 true) r.2.2
  (r.1.enum.map fun p => ⟨idI, Int.ofNat (p.1 + 1), false, p.2⟩)
    ++ [⟨idI, Int.ofNat (r.1.length + 1), true, lastC⟩]

/-! ### Client download pipeline (`webapp/src/download.rs`,
`DownloadMsg::StartFileDownload`)

The decoder mirrors the encoder with buffer capacity
`BLOCK_SIZE + BLOCK_OVERHEAD`, calling `decrypt_next` on each full
ciphertext block and `decrypt_last` on the residual when the HTTP body
stream ends.  A failed decryption aborts with no output (`none`). -/

def decFeed (A : Aead) (key n19 : Bytes) (bo : Nat) (ctr : Nat)
    (buffer v : Bytes) : Option (Bytes × Nat × Bytes) :=
  if buffer.length < bo ∧ bo ≤ buffer.length + v.length then
    let split := bo - buffer.length
    (A.dec key (streamNonce n19 ctr false) (buffer ++ v.take split)).bind fun res =>
      (decFeed A key n19 bo (ctr + 1) [] (v.drop split)).map fun r =>
        (res ++ r.1, r.2)
  else some ([], ctr, buffer ++ v)
termination_by v.length
decreasing_by
  simp only [List.length_drop]
  omega

def decPieces (A : Aead) (key n19 : Bytes) (bo : Nat) (ctr : Nat)
    (buffer : Bytes) : List Bytes → Option (Bytes × Nat × Bytes)
  | [] => some ([], ctr, buffer)
  | v :: rest =>
    (decFeed A key n19 bo ctr buffer v).bind fun r =>
      (decPieces A key n19 bo r.2.1 r.2.2 rest).map fun r2 =>
        (r.1 ++ r2.1, r2.2)

/-- The whole client download path for file mode: derive the key, one-shot
decrypt the filename with `filename_nonce`, stream-decrypt the body with
the BE32 decryptor, and finish with `decrypt_last` over the residual. -/
def clientFileDownload (A : Aead) (hkdf : Bytes → Bytes → Bytes)
    (P salt n19 fnNonce encName : Bytes) (bodyPieces : List Bytes) :
    Option (Bytes × Bytes) :=
  let key := hkdf salt P
  match A.dec key fnNonce encName with
  | none => none
  | some name =>
    match decPieces A key n19 (BLOCK_SIZE + BLOCK_OVERHEAD) 0 [] bodyPieces with
    | none => none
    | some r =>
      match A.dec key (streamNonce n19 r.2.1 true) r.2.2 with
      | none => none
      | some last => some (r.1 ++ last, name)

/-! ### Characterizing the streaming loops -/

/-- Reference shape of the encoder output: the blocks encrypted one-shot
with consecutive BE32 counters starting at `ctr`, last flag 0. -/
def ctsFrom (A : Aead) (key n19 : Bytes) (ctr : Nat) : List Bytes → List Bytes
  | [] => []
  | blk :: rest =>
    A.enc key (streamNonce n19 ctr false) blk :: ctsFrom A key n19 (ctr + 1) rest

theorem ctsFrom_append (A : Aead) (key n19 : Bytes) (ctr : Nat)
    (L₁ L₂ : List Bytes) :
    ctsFrom A key n19 ctr (L₁ ++ L₂)
      = ctsFrom A key n19 ctr L₁ ++ ctsFrom A key n19 (ctr + L₁.length) L₂ := by
  induction L₁ generalizing ctr with
  | nil => simp [ctsFrom]
  | cons blk rest ih =>
    simp only [List.cons_append, ctsFrom, List.length_cons, List.append_eq]
    rw [ih (ctr + 1)]
    have harith : ctr + 1 + rest.length = ctr + (rest.length + 1) := by omega
    rw [harith]

theorem ctsFrom_length (A : Aead) (key n19 : Bytes) (ctr : Nat)
    (L : List Bytes) : (ctsFrom A key n19 ctr L).length = L.length := by
  induction L generalizing ctr with
  | nil => rfl
  | cons blk rest ih => simp [ctsFrom, ih]

theorem encFeed_eq_pos (A : Aead) (key n19 : Bytes) (b ctr : Nat)
    (buffer v : Bytes) (h : buffer.length < b ∧ b ≤ buffer.length + v.length) :
    encFeed A key n19 b ctr buffer v
      = (A.enc key (streamNonce n19 ctr false) (buffer ++ v.take (b - buffer.length))
          :: (encFeed A key n19 b (ctr + 1) [] (v.drop (b - buffer.length))).1,
         (encFeed A key n19 b (ctr + 1) [] (v.drop (b - buffer.length))).2) := by
  conv_lhs => rw [encFeed, if_pos h]

theorem encFeed_eq_neg (A : Aead) (key n19 : Bytes) (b ctr : Nat)
    (buffer v : Bytes) (h : ¬(buffer.length < b ∧ b ≤ buffer.length + v.length)) :
    encFeed A key n19 b ctr buffer v = ([], ctr, buffer ++ v) := by
  conv_lhs => rw [encFeed, if_neg h]

theorem encFeed_spec (A : Aead) (key n19 : Bytes) (b : Nat) (hb : 0 < b) :
    ∀ (ctr : Nat) (buffer v : Bytes), buffer.length < b →
    encFeed A key n19 b ctr buffer v
      = (ctsFrom A key n19 ctr (chunksOf b (buffer ++ v)),
         ctr + (chunksOf b (buffer ++ v)).length,
         remOf b (buffer ++ v)) := by
  intro ctr buffer v
  induction ctr, buffer, v using encFeed.induct A key n19 b with
  | case1 ctr buffer v h split ih =>
    intro hbuf
    have hcond : b ≤ (buffer ++ v).length := by
      rw [List.length_append]; omega
    have htake : (buffer ++ v).take b = buffer ++ v.take (b - buffer.length) := by
      rw [List.take_append_eq_append_take, List.take_of_length_le (Nat.le_of_lt hbuf)]
    have hdrop : (buffer ++ v).drop b = v.drop (b - buffer.length) := by
      rw [List.drop_append_eq_append_drop, List.drop_of_length_le (Nat.le_of_lt hbuf)]
      simp
    have hnil : ([] : Bytes).length < b := by simpa using hb
    have hsplit : split = b - buffer.length := rfl
    rw [hsplit] at ih
    simp only [List.nil_append] at ih
    rw [encFeed_eq_pos A key n19 b ctr buffer v h, ih hnil,
      chunksOf_eq_cons b (buffer ++ v) ⟨hb, hcond⟩,
      remOf_eq_drop b (buffer ++ v) ⟨hb, hcond⟩, htake, hdrop]
    simp only [ctsFrom, List.length_cons, Prod.mk.injEq]
    exact ⟨trivial, by omega, trivial⟩
  | case2 ctr buffer v h =>
    intro hbuf
    have hshort : ¬(0 < b ∧ b ≤ (buffer ++ v).length) := by
      rw [List.length_append]
      intro hcon
      exact h ⟨hbuf, hcon.2⟩
    rw [encFeed_eq_neg A key n19 b ctr buffer v h,
      chunksOf_eq_nil b (buffer ++ v) hshort, remOf_eq_self b (buffer ++ v) hshort]
    simp [ctsFrom]

theorem encPieces_spec (A : Aead) (key n19 : Bytes) (b : Nat) (hb : 0 < b) :
    ∀ (pieces : List Bytes) (ctr : Nat) (buffer : Bytes), buffer.length < b →
    encPieces A key n19 b ctr buffer pieces
      = (ctsFrom A key n19 ctr (chunksOf b (buffer ++ pieces.flatten)),
         ctr + (chunksOf b (buffer ++ pieces.flatten)).length,
         remOf b (buffer ++ pieces.flatten)) := by
  intro pieces
  induction pieces with
  | nil =>
    intro ctr buffer hbuf
    have hshort : ¬(0 < b ∧ b ≤ buffer.length) := fun hcon => by omega
    simp only [encPieces, List.flatten_nil, List.append_nil]
    rw [chunksOf_eq_nil b buffer hshort, remOf_eq_self b buffer hshort]
    simp [ctsFrom]
  | cons v rest ih =>
    intro ctr buffer hbuf
    have hrem : (remOf b (buffer ++ v)).length < b := remOf_length_lt b (buffer ++ v) hb
    simp only [encPieces]
    rw [encFeed_spec A key n19 b hb ctr buffer v hbuf, ih _ _ hrem]
    have hflat : buffer ++ (v :: rest).flatten = (buffer ++ v) ++ rest.flatten := by
      rw [List.flatten_cons, List.append_assoc]
    rw [hflat, chunksOf_append b (buffer ++ v) rest.flatten hb,
      remOf_append b (buffer ++ v) rest.flatten hb, ctsFrom_append]
    simp only [List.length_append, Prod.mk.injEq]
    exact ⟨trivial, by omega, trivial⟩

/-- Reference shape of the decoder: decrypt a list of ciphertext blocks
one-shot with consecutive counters, failing as soon as one block fails. -/
def decsFrom (A : Aead) (key n19 : Bytes) (ctr : Nat) :
    List Bytes → Option (List Bytes)
  | [] => some []
  | c :: rest =>
    (A.dec key (streamNonce n19 ctr false) c).bind fun r =>
      (decsFrom A key n19 (ctr + 1) rest).map fun rs => r :: rs

theorem decsFrom_append (A : Aead) (key n19 : Bytes) (L₁ L₂ : List Bytes) :
    ∀ ctr, decsFrom A key n19 ctr (L₁ ++ L₂)
      = (decsFrom A key n19 ctr L₁).bind fun r1 =>
          (decsFrom A key n19 (ctr + L₁.length) L₂).map fun r2 => r1 ++ r2 := by
  induction L₁ with
  | nil =>
    intro ctr
    simp only [List.nil_append, decsFrom, Option.some_bind, List.length_nil, Nat.add_zero]
    cases decsFrom A key n19 ctr L₂ <;> simp
  | cons c rest ih =>
    intro ctr
    have harith : ctr + 1 + rest.length = ctr + (rest.length + 1) := by omega
    simp only [List.cons_append, decsFrom, List.append_eq]
    rw [ih (ctr + 1), harith]
    simp only [List.length_cons]
    cases A.dec key (streamNonce n19 ctr false) c with
    | none => simp
    | some r =>
      cases decsFrom A key n19 (ctr + 1) rest with
      | none => simp
      | some rs =>
        cases decsFrom A key n19 (ctr + (rest.length + 1)) L₂ <;> simp

theorem decsFrom_ctsFrom (A : Aead) (hA : LawfulAead A) (key n19 : Bytes)
    (L : List Bytes) : ∀ ctr,
    decsFrom A key n19 ctr (ctsFrom A key n19 ctr L) = some L := by
  induction L with
  | nil => intro ctr; rfl
  | cons blk rest ih =>
    intro ctr
    simp only [ctsFrom, decsFrom, hA.round, ih (ctr + 1), Option.some_bind,
      Option.map_some']

theorem ctsFrom_mem_length (A : Aead) (hA : LawfulAead A) (key n19 : Bytes)
    (b : Nat) (L : List Bytes) (hL : ∀ blk ∈ L, blk.length = b) :
    ∀ ctr, ∀ c ∈ ctsFrom A key n19 ctr L, c.length = b + 16 := by
  induction L with
  | nil => intro ctr c hc; simp [ctsFrom] at hc
  | cons blk rest ih =>
    intro ctr c hc
    rcases List.mem_cons.mp hc with h' | h'
    · rw [h', hA.len, hL blk (List.mem_cons_self blk rest)]
    · exact ih (fun x hx => hL x (List.mem_cons_of_mem blk hx)) (ctr + 1) c h'

theorem decFeed_eq_pos (A : Aead) (key n19 : Bytes) (bo ctr : Nat)
    (buffer v : Bytes) (h : buffer.length < bo ∧ bo ≤ buffer.length + v.length) :
    decFeed A key n19 bo ctr buffer v
      = (A.dec key (streamNonce n19 ctr false)
            (buffer ++ v.take (bo - buffer.length))).bind fun res =>
          (decFeed A key n19 bo (ctr + 1) [] (v.drop (bo - buffer.length))).map fun r =>
            (res ++ r.1, r.2) := by
  conv_lhs => rw [decFeed, if_pos h]

theorem decFeed_eq_neg (A : Aead) (key n19 : Bytes) (bo ctr : Nat)
    (buffer v : Bytes) (h : ¬(buffer.length < bo ∧ bo ≤ buffer.length + v.length)) :
    decFeed A key n19 bo ctr buffer v = some ([], ctr, buffer ++ v) := by
  conv_lhs => rw [decFeed, if_neg h]

theorem decFeed_spec (A : Aead) (key n19 : Bytes) (bo : Nat) (hb : 0 < bo) :
    ∀ (ctr : Nat) (buffer v : Bytes), buffer.length < bo →
    decFeed A key n19 bo ctr buffer v
      = (decsFrom A key n19 ctr (chunksOf bo (buffer ++ v))).map fun rs =>
          (rs.flatten, ctr + (chunksOf bo (buffer ++ v)).length,
           remOf bo (buffer ++ v)) := by
  intro ctr buffer v
  induction ctr, buffer, v using decFeed.induct A key n19 bo with
  | case1 ctr buffer v h split ih =>
    intro hbuf
    have hcond : bo ≤ (buffer ++ v).length := by
      rw [List.length_append]; omega
    have htake : (buffer ++ v).take bo = buffer ++ v.take (bo - buffer.length) := by
      rw [List.take_append_eq_append_take, List.take_of_length_le (Nat.le_of_lt hbuf)]
    have hdrop : (buffer ++ v).drop bo = v.drop (bo - buffer.length) := by
      rw [List.drop_append_eq_append_drop, List.drop_of_length_le (Nat.le_of_lt hbuf)]
      simp
    have hnil : ([] : Bytes).length < bo := by simpa using hb
    have hsplit : split = bo - buffer.length := rfl
    rw [hsplit] at ih
    simp only [List.nil_append] at ih
    rw [decFeed_eq_pos A key n19 bo ctr buffer v h, ih hnil,
      chunksOf_eq_cons bo (buffer ++ v) ⟨hb, hcond⟩,
      remOf_eq_drop bo (buffer ++ v) ⟨hb, hcond⟩, htake, hdrop]
    simp only [decsFrom]
    cases A.dec key (streamNonce n19 ctr false)
        (buffer ++ v.take (bo - buffer.length)) with
    | none => rfl
    | some res =>
      simp only [Option.some_bind]
      cases decsFrom A key n19 (ctr + 1) (chunksOf bo (v.drop (bo - buffer.length))) with
      | none => rfl
      | some rs =>
        simp only [Option.map_some', List.flatten_cons, List.length_cons]
        refine congrArg some ?_
        simp only [Prod.mk.injEq]
        exact ⟨trivial, by omega, trivial⟩
  | case2 ctr buffer v h =>
    intro hbuf
    have hshort : ¬(0 < bo ∧ bo ≤ (buffer ++ v).length) := by
      rw [List.length_append]
      intro hcon
      exact h ⟨hbuf, hcon.2⟩
    rw [decFeed_eq_neg A key n19 bo ctr buffer v h,
      chunksOf_eq_nil bo (buffer ++ v) hshort, remOf_eq_self bo (buffer ++ v) hshort]
    simp [decsFrom]

theorem decPieces_spec (A : Aead) (key n19 : Bytes) (bo : Nat) (hb : 0 < bo) :
    ∀ (pieces : List Bytes) (ctr : Nat) (buffer : Bytes), buffer.length < bo →
    decPieces A key n19 bo ctr buffer pieces
      = (decsFrom A key n19 ctr (chunksOf bo (buffer ++ pieces.flatten))).map fun rs =>
          (rs.flatten, ctr + (chunksOf bo (buffer ++ pieces.flatten)).length,
           remOf bo (buffer ++ pieces.flatten)) := by
  intro pieces
  induction pieces with
  | nil =>
    intro ctr buffer hbuf
    have hshort : ¬(0 < bo ∧ bo ≤ buffer.length) := fun hcon => by omega
    simp only [decPieces, List.flatten_nil, List.append_nil]
    rw [chunksOf_eq_nil bo buffer hshort, remOf_eq_self bo buffer hshort]
    simp [decsFrom]
  | cons v rest ih =>
    intro ctr buffer hbuf
    have hrem : (remOf bo (buffer ++ v)).length < bo := remOf_length_lt bo (buffer ++ v) hb
    have hflat : buffer ++ (v :: rest).flatten = (buffer ++ v) ++ rest.flatten := by
      rw [List.flatten_cons, List.append_assoc]
    simp only [decPieces]
    rw [hflat, chunksOf_append bo (buffer ++ v) rest.flatten hb,
      remOf_append bo (buffer ++ v) rest.flatten hb, decsFrom_append,
      decFeed_spec A key n19 bo hb ctr buffer v hbuf]
    cases h1 : decsFrom A key n19 ctr (chunksOf bo (buffer ++ v)) with
    | none => rfl
    | some rs1 =>
      simp only [Option.map_some', Option.some_bind]
      rw [ih (ctr + (chunksOf bo (buffer ++ v)).length) (remOf bo (buffer ++ v)) hrem]
      cases h2 : decsFrom A key n19 (ctr + (chunksOf bo (buffer ++ v)).length)
          (chunksOf bo (remOf bo (buffer ++ v) ++ rest.flatten)) with
      | none => rfl
      | some rs2 =>
        simp only [Option.map_some', Option.map_map, List.length_append]
        simp only [Function.comp, List.flatten_append]
        refine congrArg some ?_
        simp only [Prod.mk.injEq]
        exact ⟨trivial, by omega, trivial⟩

theorem BLOCK_SIZE_pos : 0 < BLOCK_SIZE := by decide

theorem enumFrom_map_snd (l : List Bytes) :
    ∀ n, (List.enumFrom n l).map (fun p => p.2) = l := by
  induction l with
  | nil => intro n; rfl
  | cons x rest ih =>
    intro n
    simp only [List.enumFrom, List.map_cons, ih (n + 1)]

/-- The ciphertext contents posted by `encrypt_routine`, in seq order:
the encrypted complete blocks, then the `encrypt_last` output. -/
theorem clientUploadReqs_content (A : Aead) (key n19 : Bytes) (idI : Int)
    (pieces : List Bytes) :
    (clientUploadReqs A key n19 idI pieces).map (fun r => r.content)
      = ctsFrom A key n19 0 (chunksOf BLOCK_SIZE pieces.flatten)
        ++ [A.enc key
              (streamNonce n19 (chunksOf BLOCK_SIZE pieces.flatten).length true)
              (remOf BLOCK_SIZE pieces.flatten)] := by
  have hnil : ([] : Bytes).length < BLOCK_SIZE := by
    simpa using BLOCK_SIZE_pos
  simp only [clientUploadReqs,
    encPieces_spec A key n19 BLOCK_SIZE BLOCK_SIZE_pos pieces 0 [] hnil,
    List.nil_append, Nat.zero_add]
  rw [List.map_append, List.map_map]
  simp only [Function.comp_def, List.map_cons, List.map_nil]
  rw [List.enum, enumFrom_map_snd]

/-- Crypto-level round trip: decrypting (with the streaming decoder and
the same derived key) any re-chunking of the concatenated ciphertexts
uploaded by `encrypt_routine` recovers the original file and filename. -/
theorem clientDownload_of_upload (A : Aead) (hA : LawfulAead A)
    (hkdf : Bytes → Bytes → Bytes) (P salt n19 fnNonce N : Bytes) (idI : Int)
    (pieces bodyPieces : List Bytes)
    (hbody : bodyPieces.flatten
      = ((clientUploadReqs A (hkdf salt P) n19 idI pieces).map
          (fun r => r.content)).flatten) :
    clientFileDownload A hkdf P salt n19 fnNonce
        (A.enc (hkdf salt P) fnNonce N) bodyPieces
      = some (pieces.flatten, N) := by
  have hbo : 0 < BLOCK_SIZE + BLOCK_OVERHEAD := by decide
  have hnil : ([] : Bytes).length < BLOCK_SIZE + BLOCK_OVERHEAD := by simpa using hbo
  have hOv : BLOCK_OVERHEAD = 16 := rfl
  have hcts : ∀ c ∈ ctsFrom A (hkdf salt P) n19 0 (chunksOf BLOCK_SIZE pieces.flatten),
      c.length = BLOCK_SIZE + BLOCK_OVERHEAD := by
    intro c hc
    rw [hOv]
    exact ctsFrom_mem_length A hA (hkdf salt P) n19 BLOCK_SIZE _
      (fun blk hblk => chunksOf_mem_length BLOCK_SIZE pieces.flatten blk hblk) 0 c hc
  have hlast_len : (A.enc (hkdf salt P)
        (streamNonce n19 (chunksOf BLOCK_SIZE pieces.flatten).length true)
        (remOf BLOCK_SIZE pieces.flatten)).length
      < BLOCK_SIZE + BLOCK_OVERHEAD := by
    rw [hA.len, remOf_length BLOCK_SIZE pieces.flatten BLOCK_SIZE_pos, hOv]
    have := Nat.mod_lt pieces.flatten.length BLOCK_SIZE_pos
    omega
  have hsplit := chunksOf_flatten_blocks (BLOCK_SIZE + BLOCK_OVERHEAD)
    (ctsFrom A (hkdf salt P) n19 0 (chunksOf BLOCK_SIZE pieces.flatten))
    (A.enc (hkdf salt P)
      (streamNonce n19 (chunksOf BLOCK_SIZE pieces.flatten).length true)
      (remOf BLOCK_SIZE pieces.flatten)) hbo hcts hlast_len
  have hflatbody : ([] : Bytes) ++ bodyPieces.flatten
      = (ctsFrom A (hkdf salt P) n19 0 (chunksOf BLOCK_SIZE pieces.flatten)).flatten
        ++ A.enc (hkdf salt P)
            (streamNonce n19 (chunksOf BLOCK_SIZE pieces.flatten).length true)
            (remOf BLOCK_SIZE pieces.flatten) := by
    rw [List.nil_append, hbody, clientUploadReqs_content]
    rw [List.flatten_append]
    simp
  simp only [clientFileDownload, hA.round]
  rw [decPieces_spec A (hkdf salt P) n19 (BLOCK_SIZE + BLOCK_OVERHEAD) hbo
    bodyPieces 0 [] hnil]
  rw [hflatbody, hsplit.1, hsplit.2,
    decsFrom_ctsFrom A hA (hkdf salt P) n19 (chunksOf BLOCK_SIZE pieces.flatten) 0]
  simp only [Option.map_some', Nat.zero_add, ctsFrom_length]
  rw [hA.round]
  show some ((chunksOf BLOCK_SIZE pieces.flatten).flatten
    ++ remOf BLOCK_SIZE pieces.flatten, N) = some (pieces.flatten, N)
  rw [chunksOf_flatten_rem BLOCK_SIZE pieces.flatten]

/-! ### Server data model (`server/src/handlers.rs`, schema)

One `files` row and one `file_contents` row.  The column defaults
`upload_complete = false`, `available = true`, `created_at = now()` and
the uniqueness constraint on `(file_id, seq)` live in the SQL schema,
which is not part of the sources; they are modelled from the spec
(§3 data model, §4.3 edge cases). -/

structure FileRow where
  fid : Int
  filename : Bytes
  salt : Bytes
  nonce : Bytes
  filenameNonce : Bytes
  isText : Bool
  uploadComplete : Bool
  available : Bool
  createdAt : Int
deriving DecidableEq

structure ChunkRow where
  fileId : Int
  seq : Int
  content : Bytes
deriving DecidableEq

structure DB where
  files : List FileRow
  chunks : List ChunkRow
  nextId : Int
deriving DecidableEq

def BAD_REQUEST : Nat := 400
def NOT_FOUND : Nat := 404
def INTERNAL_SERVER_ERROR : Nat := 500

/-- `i64::from_be_bytes(bytes) as u64`: the unsigned big-endian value of
the 8 field bytes (faithful when every entry is `< 256`). -/
def beU64 (l : Bytes) : Nat :=
  l.foldl (fun a b => a * 256 + b) 0

/-- `i64::from_be_bytes`: two's-complement signed value of 8 big-endian
bytes. -/
def i64ofBE (l : Bytes) : Int :=
  let u := beU64 l
  if u < 2 ^ 63 then (u : Int) else (u : Int) - 2 ^ 64

/-- `i64::to_be_bytes` on the client side. -/
def beBytes64 (x : Int) : Bytes :=
  let u := (x % 2 ^ 64).toNat
  [u / 2 ^ 56 % 256, u / 2 ^ 48 % 256, u / 2 ^ 40 % 256, u / 2 ^ 32 % 256,
   u / 2 ^ 24 % 256, u / 2 ^ 16 % 256, u / 2 ^ 8 % 256, u % 256]

/-- `POST /api/prepare_upload`.  Each argument is the byte content of the
homonymous multipart field when present.  Field-level validation follows
the handler: `salt` must be 32 bytes, `nonce` 19 or 24 bytes,
`filename_nonce` 24 bytes, `is_text` 1 byte; `filename` is unchecked.
The `is_text` flag starts `false` and is set from the field byte.  In
file mode all four of salt/nonce/filename_nonce/filename are mandatory;
in text mode only salt and nonce.  The row is inserted with
`filename`/`filename_nonce` defaulting to empty (`unwrap_or_default`),
`upload_complete = false`, `available = true`, `created_at = now`
(schema defaults, modelled from the spec), and the fresh id is
returned. -/
def prepare_upload (db : DB) (now : Int)
    (salt nonce filename_nonce filename is_text : Option Bytes) :
    Except Nat (DB × Int) :=
  if salt.any fun s => s.length != 32 then .error BAD_REQUEST
  else if nonce.any fun s => s.length != 19 && s.length != 24 then
    .error BAD_REQUEST
  else if filename_nonce.any fun s => s.length != 24 then .error BAD_REQUEST
  else if is_text.any fun s => s.length != 1 then .error BAD_REQUEST
  else
    let isTextB := match is_text with
      | some b => b.headD 0 != 0
      | none => false
    if !isTextB &&
        (salt.isNone || nonce.isNone || filename_nonce.isNone || filename.isNone)
      then .error BAD_REQUEST
    else if isTextB && (salt.isNone || nonce.isNone) then .error BAD_REQUEST
    else
      let row : FileRow :=
        { fid := db.nextId
          filename := filename.getD []
          salt := salt.getD []
          nonce := nonce.getD []
          filenameNonce := filename_nonce.getD []
          isText := isTextB
          uploadComplete := false
          available := true
          createdAt := now }
      .ok ({ files := db.files ++ [row], chunks := db.chunks,
             nextId := db.nextId + 1 }, db.nextId)

/-- `POST /api/upload`.  `id` and `seq` must be 8 bytes; the `seq` field
is additionally range-checked as a `u64` against `chunk_count_limit`;
`is_last` must be 1 byte; all four fields are mandatory.  The chunk row
is then inserted (the insert fails with 500 exactly when the
`(file_id, seq)` uniqueness constraint is violated — schema behaviour
modelled from the spec), and, in the same transaction, `is_last ≠ 0`
flips `upload_complete` for every `files` row with that id. -/
def upload (db : DB) (limit : Nat)
    (id seq is_last content : Option Bytes) : Except Nat DB :=
  if id.any fun s => s.length != 8 then .error BAD_REQUEST
  else if seq.any fun s => s.length != 8 then .error BAD_REQUEST
  else if seq.any fun s => decide (limit < beU64 s) then .error BAD_REQUEST
  else if is_last.any fun s => s.length != 1 then .error BAD_REQUEST
  else if id.isNone || seq.isNone || is_last.isNone || content.isNone then
    .error BAD_REQUEST
  else
    let idI := i64ofBE (id.getD [])
    let seqI := i64ofBE (seq.getD [])
    let lastB := (is_last.getD []).headD 0 != 0
    if db.chunks.any fun c => c.fileId == idI && c.seq == seqI then
      .error INTERNAL_SERVER_ERROR
    else
      let db1 : DB :=
        { db with chunks := db.chunks ++ [⟨idI, seqI, content.getD []⟩] }
      if lastB then
        .ok { db1 with files := db1.files.map fun f =>
                if f.fid == idI then { f with uploadComplete := true } else f }
      else .ok db1

/-- The `files` lookup of the `metadata` handler:
`where id = ?1 and upload_complete = true` (note: `available` is not part
of the filter). -/
def findFile (db : DB) (id : Int) : Option FileRow :=
  db.files.find? fun f => f.fid == id && f.uploadComplete

/-- `(select sum(length(content)) from file_contents where file_id = ?1)`:
SQL `SUM` over an empty set is `NULL` (`none`). -/
def sqlSize (db : DB) (id : Int) : Option Int :=
  let cs := db.chunks.filter fun c => c.fileId == id
  if cs.isEmpty then none
  else some (cs.foldl (fun a c => a + (c.content.length : Int)) 0)

structure MetadataResp where
  filename : Bytes
  salt : Bytes
  nonce : Bytes
  filenameNonce : Bytes
  isText : Bool
  size : Int
deriving DecidableEq

/-- `GET /api/metadata?id=…` after the query-string parse: non-positive
id → 400; no matching completed row → 404; a `NULL` sum (no chunk rows)
makes `row.get::<i64>` fail → 500. -/
def metadata (db : DB) (id : Int) : Except Nat MetadataResp :=
  if id ≤ 0 then .error BAD_REQUEST
  else
    match findFile db id with
    | none => .error NOT_FOUND
    | some f =>
      match sqlSize db id with
      | none => .error INTERNAL_SERVER_ERROR
      | some s =>
        .ok { filename := f.filename, salt := f.salt, nonce := f.nonce,
              filenameNonce := f.filenameNonce, isText := f.isText, size := s }

/-- SQL `MAX(seq)` over a list of chunk rows; `none` on the empty set. -/
def maxSeqList : List ChunkRow → Option Int
  | [] => none
  | c :: cs => some (cs.foldl (fun a c' => max a c'.seq) c.seq)

/-- `select seq from file_contents where file_id = ?1 order by seq desc
limit 1` (SQL `MAX`); `none` when the file has no chunk rows. -/
def maxSeq (db : DB) (id : Int) : Option Int :=
  maxSeqList (db.chunks.filter fun c => c.fileId == id)

/-- `select content from file_contents where file_id = ?1 and seq = ?2`. -/
def readChunk (db : DB) (id seq : Int) : Option Bytes :=
  (db.chunks.find? fun c => c.fileId == id && c.seq == seq).map fun c => c.content

/-- The `for seq in 1..=last_seq` collection loop of the `download`
handler: read chunks for seq `1..n` in order, failing with 500 when a
row is missing. -/
def readSeqs (db : DB) (id : Int) : Nat → Except Nat (List Bytes)
  | 0 => .ok []
  | n + 1 =>
    match readSeqs db id n with
    | .error e => .error e
    | .ok acc =>
      match readChunk db id (Int.ofNat (n + 1)) with
      | none => .error INTERNAL_SERVER_ERROR
      | some c => .ok (acc ++ [c])

/-- `GET /api/download?id=…`: non-positive id → 400; an empty `MAX(seq)`
result set → 500 (the handler maps the missing row to
`INTERNAL_SERVER_ERROR`, not 404); otherwise the chunk contents for seq
`1..last_seq` are collected and streamed in order. -/
def download (db : DB) (id : Int) : Except Nat (List Bytes) :=
  if id ≤ 0 then .error BAD_REQUEST
  else
    match maxSeq db id with
    | none => .error INTERNAL_SERVER_ERROR
    | some last => readSeqs db id last.toNat

/-- One tick of the GC worker (`server/src/workers.rs`, `delete_expired`):
inside one transaction, delete every chunk row whose owning file satisfies
`unixepoch(now) > unixepoch(created_at) + expiry`, collect the
`returning file_id` values of the deleted rows (sorted and deduplicated;
the sort only affects order, which the per-id updates do not observe),
and set `available = false` for each collected id. -/
def delete_expired (db : DB) (now expiry : Int) : DB :=
  let expIds := (db.files.filter fun f => now > f.createdAt + expiry).map
    fun f => f.fid
  let deleted := db.chunks.filter fun c => expIds.contains c.fileId
  let affected := (deleted.map fun c => c.fileId).dedup
  { db with
    chunks := db.chunks.filter fun c => !expIds.contains c.fileId
    files := db.files.map fun f =>
      if affected.contains f.fid then { f with available := false } else f }

/-! ### Base64 (RFC 4648, standard alphabet), used by the `metadata`
JSON serializer (`#[serde(with = "super::utils::base64")]`). -/

def b64chars : List Char :=
  "ABCDEFGHIJKLMNOPQRSTUVWXYZabcdefghijklmnopqrstuvwxyz0123456789+/".toList

def b64char (n : Nat) : Char := b64chars.getD n '?'

def base64chars : Bytes → List Char
  | b1 :: b2 :: b3 :: rest =>
    b64char (b1 / 4) :: b64char (b1 % 4 * 16 + b2 / 16)
      :: b64char (b2 % 16 * 4 + b3 / 64) :: b64char (b3 % 64)
      :: base64chars rest
  | [b1, b2] =>
    [b64char (b1 / 4), b64char (b1 % 4 * 16 + b2 / 16),
     b64char (b2 % 16 * 4), '=']
  | [b1] => [b64char (b1 / 4), b64char (b1 % 4 * 16), '=', '=']
  | [] => []

def base64encode (l : Bytes) : String := String.mk (base64chars l)

/-- The JSON body of a 200 `metadata` response: every byte column is
base64-encoded. -/
structure MetadataWire where
  filename : String
  salt : String
  nonce : String
  filenameNonce : String
  isText : Bool
  size : Int
deriving DecidableEq

def metadataWire (db : DB) (id : Int) : Except Nat MetadataWire :=
  (metadata db id).map fun m =>
    { filename := base64encode m.filename, salt := base64encode m.salt,
      nonce := base64encode m.nonce,
      filenameNonce := base64encode m.filenameNonce,
      isText := m.isText, size := m.size }

/-- The client upload loop posts its requests one by one and aborts on the
first non-200 response. -/
def uploadAll (db : DB) (limit : Nat) : List UploadReq → Except Nat DB
  | [] => .ok db
  | r :: rest =>
    match upload db limit (some (beBytes64 r.id)) (some (beBytes64 r.seq))
        (some [if r.isLast then 1 else 0]) (some r.content) with
    | .error e => .error e
    | .ok db' => uploadAll db' limit rest

/-! ### Wire integer codec facts -/

theorem beU64_beBytes64 (x : Int) : beU64 (beBytes64 x) = (x % 2 ^ 64).toNat := by
  have hu : (x % 2 ^ 64).toNat < 2 ^ 64 := by omega
  simp only [beU64, beBytes64, List.foldl]
  omega

theorem beBytes64_length (x : Int) : (beBytes64 x).length = 8 := rfl

theorem i64ofBE_beBytes64 (x : Int) (hlo : -(2 ^ 63) ≤ x) (hhi : x < 2 ^ 63) :
    i64ofBE (beBytes64 x) = x := by
  simp only [i64ofBE, beU64_beBytes64]
  split <;> omega

/-! ### Upload handler: success-path characterization -/

theorem upload_ok (db : DB) (limit : Nat) (idI seqI : Int) (fl : Nat) (c : Bytes)
    (hidlo : -(2 ^ 63) ≤ idI) (hidhi : idI < 2 ^ 63)
    (hseqlo : 0 ≤ seqI) (hseqhi : seqI < 2 ^ 63)
    (hlim : seqI.toNat ≤ limit)
    (hdup : (db.chunks.any fun ch => ch.fileId == idI && ch.seq == seqI) = false) :
    ∃ db', upload db limit (some (beBytes64 idI)) (some (beBytes64 seqI))
        (some [fl]) (some c) = .ok db'
      ∧ db'.chunks = db.chunks ++ [⟨idI, seqI, c⟩] := by
  have hseq64 : beU64 (beBytes64 seqI) = seqI.toNat := by
    rw [beU64_beBytes64]
    omega
  have hnolim : decide (limit < beU64 (beBytes64 seqI)) = false := by
    rw [hseq64]
    simp
    omega
  have h1 := i64ofBE_beBytes64 idI hidlo hidhi
  have h2 := i64ofBE_beBytes64 seqI (by omega) hseqhi
  simp only [upload, Option.any_some, beBytes64_length, Option.isNone_some,
    Option.getD_some, h1, h2, hnolim, hdup]
  simp
  split
  · exact ⟨_, rfl, by simp⟩
  · exact ⟨_, rfl, by simp⟩

/-- The `prepare_upload` success path in file mode (all four byte fields
present with valid lengths, no `is_text` field). -/
theorem prepare_upload_file_ok (db : DB) (now : Int)
    (salt n19 fnNonce encName : Bytes)
    (hs : salt.length = 32) (hn : n19.length = 19) (hfn : fnNonce.length = 24) :
    prepare_upload db now (some salt) (some n19) (some fnNonce) (some encName) none
      = .ok ({ files := db.files ++
                 [⟨db.nextId, encName, salt, n19, fnNonce, false, false, true, now⟩],
               chunks := db.chunks, nextId := db.nextId + 1 }, db.nextId) := by
  simp [prepare_upload, hs, hn, hfn]

/-! ### Rows stored by a serialized client upload -/

/-- Chunk rows for contents `conts` stored under id `idI` with seq values
`k+1, k+2, …` in order. -/
def seqRows (idI : Int) (k : Nat) : List Bytes → List ChunkRow
  | [] => []
  | c :: cs => ⟨idI, Int.ofNat (k + 1), c⟩ :: seqRows idI (k + 1) cs

theorem seqRows_append (idI : Int) (l₁ l₂ : List Bytes) :
    ∀ k, seqRows idI k (l₁ ++ l₂)
      = seqRows idI k l₁ ++ seqRows idI (k + l₁.length) l₂ := by
  induction l₁ with
  | nil => intro k; simp [seqRows]
  | cons c cs ih =>
    intro k
    simp only [List.cons_append, seqRows, List.append_eq, ih (k + 1), List.length_cons]
    have harith : k + 1 + cs.length = k + (cs.length + 1) := by omega
    rw [harith]

theorem enumFrom_map_seqRows (idI : Int) (cs : List Bytes) :
    ∀ k, (List.enumFrom k cs).map
        (fun p => (⟨idI, Int.ofNat (p.1 + 1), p.2⟩ : ChunkRow))
      = seqRows idI k cs := by
  induction cs with
  | nil => intro k; rfl
  | cons c rest ih =>
    intro k
    simp only [List.enumFrom, List.map_cons, seqRows, ih (k + 1)]

theorem seqRows_filter_self (idI : Int) (conts : List Bytes) :
    ∀ k, (seqRows idI k conts).filter (fun c => c.fileId == idI) = seqRows idI k conts := by
  induction conts with
  | nil => intro k; rfl
  | cons c rest ih =>
    intro k
    simp only [seqRows, List.filter_cons]
    simp only [beq_self_eq_true, if_true, ih (k + 1)]

theorem seqRows_find (idI : Int) (conts : List Bytes) :
    ∀ k j, (h : j < conts.length) →
    (seqRows idI k conts).find? (fun c => c.fileId == idI && c.seq == Int.ofNat (k + j + 1))
      = some ⟨idI, Int.ofNat (k + j + 1), conts.get ⟨j, h⟩⟩ := by
  induction conts with
  | nil =>
    intro k j h
    simp at h
  | cons c rest ih =>
    intro k j h
    cases j with
    | zero =>
      simp only [seqRows]
      rw [List.find?_cons_of_pos _ (by simp)]
      simp
    | succ j' =>
      simp only [seqRows]
      rw [List.find?_cons_of_neg _ (by simp; omega)]
      have harith : k + (j' + 1) + 1 = (k + 1) + j' + 1 := by omega
      rw [harith]
      have h' : j' < rest.length := by
        simpa using Nat.lt_of_succ_lt_succ h
      rw [ih (k + 1) j' h']
      rfl

theorem seqRows_foldl_max (idI : Int) (conts : List Bytes) :
    ∀ k (a : Int),
    (seqRows idI k conts).foldl (fun acc c => max acc c.seq) a
      = if conts.isEmpty then a else max a (Int.ofNat (k + conts.length)) := by
  induction conts with
  | nil => intro k a; rfl
  | cons c rest ih =>
    intro k a
    simp only [seqRows, List.foldl_cons, ih (k + 1), List.isEmpty_cons, List.length_cons]
    cases hrest : rest.isEmpty with
    | true =>
      have hlen : rest.length = 0 := by
        cases rest with
        | nil => rfl
        | cons x xs => simp at hrest
      simp [hlen]
    | false =>
      simp only [Bool.false_eq_true, if_false]
      rw [max_assoc]
      have hle : (Int.ofNat (k + 1)) ≤ Int.ofNat (k + 1 + rest.length) :=
        Int.ofNat_le.mpr (by omega)
      rw [max_eq_right hle]
      have harith : k + 1 + rest.length = k + (rest.length + 1) := by omega
      rw [harith]

theorem maxSeqList_seqRows (idI : Int) (conts : List Bytes) (k : Nat)
    (hne : conts ≠ []) :
    maxSeqList (seqRows idI k conts) = some (Int.ofNat (k + conts.length)) := by
  cases conts with
  | nil => exact absurd rfl hne
  | cons c rest =>
    simp only [seqRows, maxSeqList, seqRows_foldl_max idI rest (k + 1), List.length_cons]
    cases hrest : rest.isEmpty with
    | true =>
      have hlen : rest.length = 0 := by
        cases rest with
        | nil => rfl
        | cons x xs => simp at hrest
      simp [hlen]
    | false =>
      simp only [Bool.false_eq_true, if_false]
      have hle : (Int.ofNat (k + 1)) ≤ Int.ofNat (k + 1 + rest.length) :=
        Int.ofNat_le.mpr (by omega)
      rw [max_eq_right hle]
      have harith : k + 1 + rest.length = k + (rest.length + 1) := by omega
      rw [harith]

/-! ### Shape of the client request sequence -/

theorem clientUploadReqs_id (A : Aead) (key n19 : Bytes) (idI : Int)
    (pieces : List Bytes) :
    ∀ r ∈ clientUploadReqs A key n19 idI pieces, r.id = idI := by
  intro r hr
  simp only [clientUploadReqs] at hr
  rcases List.mem_append.mp hr with h' | h'
  · rcases List.mem_map.mp h' with ⟨p, _, rfl⟩
    rfl
  · rcases List.mem_singleton.mp h' with rfl
    rfl

theorem seqRows_mem (idI : Int) (conts : List Bytes) :
    ∀ k c, c ∈ seqRows idI k conts →
      c.fileId = idI ∧ ∃ j, j < conts.length ∧ c.seq = Int.ofNat (k + j + 1) := by
  induction conts with
  | nil =>
    intro k c hc
    simp [seqRows] at hc
  | cons x rest ih =>
    intro k c hc
    rcases List.mem_cons.mp hc with h' | h'
    · subst h'
      exact ⟨rfl, 0, by simp, by simp⟩
    · obtain ⟨hid, j, hj, hseq⟩ := ih (k + 1) c h'
      refine ⟨hid, j + 1, by simpa using Nat.succ_lt_succ hj, ?_⟩
      rw [hseq]
      congr 1
      omega

theorem seqRows_pairwise (idI : Int) (conts : List Bytes) :
    ∀ k, List.Pairwise (fun a b : ChunkRow => a.seq ≠ b.seq) (seqRows idI k conts) := by
  induction conts with
  | nil => intro k; exact List.Pairwise.nil
  | cons x rest ih =>
    intro k
    refine List.pairwise_cons.mpr ⟨?_, ih (k + 1)⟩
    intro b hb
    obtain ⟨_, j, _, hseq⟩ := seqRows_mem idI rest (k + 1) b hb
    rw [hseq]
    intro hcon
    have := Int.ofNat.inj hcon
    omega

/-- The chunk rows written by a fully uploaded request sequence. -/
theorem clientUploadReqs_rows (A : Aead) (key n19 : Bytes) (idI : Int)
    (pieces : List Bytes) :
    (clientUploadReqs A key n19 idI pieces).map
        (fun r => (⟨r.id, r.seq, r.content⟩ : ChunkRow))
      = seqRows idI 0
          ((clientUploadReqs A key n19 idI pieces).map fun r => r.content) := by
  simp only [clientUploadReqs, List.map_append, List.map_map]
  rw [seqRows_append]
  congr 1
  · rw [show ((fun r : UploadReq => (⟨r.id, r.seq, r.content⟩ : ChunkRow)) ∘
        (fun p : Nat × Bytes => (⟨idI, Int.ofNat (p.1 + 1), false, p.2⟩ : UploadReq)))
      = (fun p : Nat × Bytes => (⟨idI, Int.ofNat (p.1 + 1), p.2⟩ : ChunkRow))
      from rfl]
    rw [show ∀ l : List Bytes, l.enum = List.enumFrom 0 l from fun _ => rfl,
      enumFrom_map_seqRows]
    congr 1
    rw [show ((fun r : UploadReq => r.content) ∘
        (fun p : Nat × Bytes => (⟨idI, Int.ofNat (p.1 + 1), false, p.2⟩ : UploadReq)))
      = (fun p : Nat × Bytes => p.2) from rfl]
    rw [enumFrom_map_snd]
  · simp only [List.map_cons, List.map_nil, List.length_map, List.enum_length, seqRows]
    simp

/-- All upload requests of one client file upload carry the file id, a
positive in-range seq, and pairwise distinct seqs. -/
theorem clientUploadReqs_props (A : Aead) (key n19 : Bytes) (idI : Int)
    (pieces : List Bytes) (limit : Nat) (hlim63 : limit < 2 ^ 63)
    (hcnt : (clientUploadReqs A key n19 idI pieces).length ≤ limit) :
    (∀ r ∈ clientUploadReqs A key n19 idI pieces,
       r.id = idI ∧ 0 ≤ r.seq ∧ r.seq < 2 ^ 63 ∧ r.seq.toNat ≤ limit)
    ∧ List.Pairwise (fun a b : UploadReq => a.seq ≠ b.seq)
        (clientUploadReqs A key n19 idI pieces) := by
  constructor
  · intro r hr
    refine ⟨clientUploadReqs_id A key n19 idI pieces r hr, ?_⟩
    have hmem : (⟨r.id, r.seq, r.content⟩ : ChunkRow)
        ∈ (clientUploadReqs A key n19 idI pieces).map
            (fun r => (⟨r.id, r.seq, r.content⟩ : ChunkRow)) :=
      List.mem_map_of_mem _ hr
    rw [clientUploadReqs_rows] at hmem
    obtain ⟨_, j, hj, hseq⟩ := seqRows_mem idI _ 0 _ hmem
    simp only [List.length_map] at hj
    have hseq' : r.seq = Int.ofNat (j + 1) := by
      simpa using hseq
    have hj1 : j + 1 ≤ limit := by omega
    rw [hseq']
    refine ⟨Int.ofNat_nonneg _, ?_, ?_⟩
    · have : (j + 1 : Int) < ((2 ^ 63 : Nat) : Int) := by
        exact_mod_cast Nat.lt_of_le_of_lt hj1 hlim63
      simpa using this
    · simpa using hj1
  · have hpw : List.Pairwise (fun a b : ChunkRow => a.seq ≠ b.seq)
        ((clientUploadReqs A key n19 idI pieces).map
          (fun r => (⟨r.id, r.seq, r.content⟩ : ChunkRow))) := by
      rw [clientUploadReqs_rows]
      exact seqRows_pairwise idI _ 0
    have h2 := List.pairwise_map.mp hpw
    exact h2

/-! ### Serialized upload of a whole request sequence -/

theorem uploadAll_ok (idI : Int) (limit : Nat)
    (hidlo : -(2 ^ 63) ≤ idI) (hidhi : idI < 2 ^ 63) :
    ∀ (reqs : List UploadReq) (db : DB),
    (∀ r ∈ reqs, r.id = idI ∧ 0 ≤ r.seq ∧ r.seq < 2 ^ 63 ∧ r.seq.toNat ≤ limit) →
    List.Pairwise (fun a b => a.seq ≠ b.seq) reqs →
    (∀ c ∈ db.chunks, c.fileId = idI → ∀ r ∈ reqs, c.seq ≠ r.seq) →
    ∃ db', uploadAll db limit reqs = .ok db'
      ∧ db'.chunks = db.chunks
          ++ reqs.map (fun r => (⟨r.id, r.seq, r.content⟩ : ChunkRow)) := by
  intro reqs
  induction reqs with
  | nil =>
    intro db _ _ _
    exact ⟨db, rfl, by simp⟩
  | cons r rest ih =>
    intro db hprops hpw hfresh
    obtain ⟨hid, hs0, hs63, hslim⟩ := hprops r (List.mem_cons_self r rest)
    have hdup : (db.chunks.any fun ch => ch.fileId == idI && ch.seq == r.seq) = false := by
      rw [List.any_eq_false]
      intro ch hch
      simp only [Bool.and_eq_true, beq_iff_eq, not_and]
      intro hcid hcseq
      exact hfresh ch hch hcid r (List.mem_cons_self r rest) hcseq
    obtain ⟨db1, hup, hchunks1⟩ :=
      upload_ok db limit idI r.seq (if r.isLast then 1 else 0) r.content
        hidlo hidhi hs0 hs63 hslim hdup
    have hfresh1 : ∀ c ∈ db1.chunks, c.fileId = idI → ∀ r' ∈ rest, c.seq ≠ r'.seq := by
      intro c hc hcid r' hr'
      rw [hchunks1] at hc
      rcases List.mem_append.mp hc with h' | h'
      · exact hfresh c h' hcid r' (List.mem_cons_of_mem r hr')
      · rcases List.mem_singleton.mp h' with rfl
        exact (List.pairwise_cons.mp hpw).1 r' hr'
    obtain ⟨db2, hrest, hchunks2⟩ := ih db1
      (fun r' hr' => hprops r' (List.mem_cons_of_mem r hr'))
      (List.pairwise_cons.mp hpw).2 hfresh1
    refine ⟨db2, ?_, ?_⟩
    · simp only [uploadAll, hid, hup, hrest]
    · rw [hchunks2, hchunks1]
      simp [hid]

/-! ### The download handler on a fully stored upload -/

theorem readSeqs_stored (db : DB) (idI : Int) (conts : List Bytes)
    (hrows : ∃ pre, db.chunks = pre ++ seqRows idI 0 conts
      ∧ ∀ c ∈ pre, c.fileId ≠ idI) :
    ∀ n, n ≤ conts.length → readSeqs db idI n = .ok (conts.take n) := by
  obtain ⟨pre, hsplit, hpre'⟩ := hrows
  intro n
  induction n with
  | zero => intro _; rfl
  | succ n ihn =>
    intro hle
    have hn : n < conts.length := by omega
    have hread : readChunk db idI (Int.ofNat (n + 1)) = some (conts.get ⟨n, hn⟩) := by
      rw [readChunk, hsplit, List.find?_append]
      have hnone : pre.find? (fun c => c.fileId == idI && c.seq == Int.ofNat (n + 1))
          = none := by
        rw [List.find?_eq_none]
        intro c hc
        simp only [Bool.and_eq_true, beq_iff_eq, not_and]
        intro hcid
        exact absurd hcid (hpre' c hc)
      rw [hnone]
      simp only [Option.none_or]
      have hfind := seqRows_find idI conts 0 n hn
      simp only [Nat.zero_add] at hfind
      rw [hfind]
      rfl
    simp only [readSeqs, ihn (by omega), hread]
    rw [List.take_succ, List.getElem?_eq_getElem hn]
    rfl

theorem download_stored (db : DB) (idI : Int) (conts : List Bytes)
    (hpos : 0 < idI) (hne : conts ≠ [])
    (hrows : ∃ pre, db.chunks = pre ++ seqRows idI 0 conts
      ∧ ∀ c ∈ pre, c.fileId ≠ idI) :
    download db idI = .ok conts := by
  obtain ⟨pre, hsplit, hpre'⟩ := hrows
  have hfilter : (db.chunks.filter fun c => c.fileId == idI) = seqRows idI 0 conts := by
    rw [hsplit, List.filter_append, seqRows_filter_self]
    have : pre.filter (fun c => c.fileId == idI) = [] := by
      rw [List.filter_eq_nil_iff]
      intro c hc
      simp only [beq_iff_eq]
      exact hpre' c hc
    rw [this, List.nil_append]
  have hmax : maxSeq db idI = some (Int.ofNat conts.length) := by
    rw [maxSeq, hfilter, maxSeqList_seqRows idI conts 0 hne]
    simp
  rw [download, if_neg (by omega), hmax]
  show readSeqs db idI (Int.ofNat conts.length).toNat = .ok conts
  have htonat : (Int.ofNat conts.length).toNat = conts.length := rfl
  rw [htonat]
  have hrd := readSeqs_stored db idI conts ⟨pre, hsplit, hpre'⟩
    conts.length (Nat.le_refl _)
  rw [hrd, List.take_length]

theorem clientUploadReqs_length (A : Aead) (key n19 : Bytes) (idI : Int)
    (pieces : List Bytes) :
    (clientUploadReqs A key n19 idI pieces).length
      = (chunksOf BLOCK_SIZE pieces.flatten).length + 1 := by
  have hnil : ([] : Bytes).length < BLOCK_SIZE := by simpa using BLOCK_SIZE_pos
  simp [clientUploadReqs,
    encPieces_spec A key n19 BLOCK_SIZE BLOCK_SIZE_pos pieces 0 [] hnil,
    ctsFrom_length]

/-- A concrete lawful AEAD instance used to witness the abstract theorems:
`enc` appends a 16-byte zero tag, `dec` strips it. -/
def toyAead : Aead where
  enc := fun _ _ m => m ++ List.replicate 16 0
  dec := fun _ _ c => if 16 ≤ c.length then some (c.take (c.length - 16)) else none

theorem toyAead_lawful : LawfulAead toyAead := by
  constructor
  · intro k n m
    simp only [toyAead, List.length_append, List.length_replicate]
    rw [if_pos (by omega)]
    congr 1
    have harith : m.length + 16 - 16 = m.length := by omega
    rw [harith]
    exact List.take_left m _
  · intro k n m
    simp [toyAead]

/-- Claim C1.  For every passphrase, every file (arriving in arbitrary
stream pieces, total at most 100 MiB) and every filename: running the
client file-upload pipeline (HKDF key derivation, one-shot filename
encryption, BE32 streaming encryption in 10 MiB blocks, chunked upload
through `prepare_upload` and `upload` with the default
`chunk_count_limit = 128`) and then the client file-download pipeline
with the same passphrase over the stored chunks (re-chunked arbitrarily
by the network) yields exactly the original file and filename. -/
theorem claim_C1 (A : Aead) (hA : LawfulAead A)
    (hkdf : Bytes → Bytes → Bytes) (P salt n19 fnNonce N : Bytes)
    (pieces : List Bytes) (db : DB) (now : Int)
    (hsalt : salt.length = 32) (hn19 : n19.length = 19) (hfn : fnNonce.length = 24)
    (hsize : pieces.flatten.length ≤ 100 * 1024 * 1024)
    (hid1 : 1 ≤ db.nextId) (hid2 : db.nextId < 2 ^ 63)
    (hfresh : ∀ c ∈ db.chunks, c.fileId ≠ db.nextId) :
    ∃ db1 db2 conts,
      prepare_upload db now (some salt) (some n19) (some fnNonce)
          (some (A.enc (hkdf salt P) fnNonce N)) none = .ok (db1, db.nextId)
      ∧ uploadAll db1 128 (clientUploadReqs A (hkdf salt P) n19 db.nextId pieces)
          = .ok db2
      ∧ download db2 db.nextId = .ok conts
      ∧ ∀ bodyPieces : List Bytes, bodyPieces.flatten = conts.flatten →
          clientFileDownload A hkdf P salt n19 fnNonce
              (A.enc (hkdf salt P) fnNonce N) bodyPieces
            = some (pieces.flatten, N) := by
  have hprep := prepare_upload_file_ok db now salt n19 fnNonce
    (A.enc (hkdf salt P) fnNonce N) hsalt hn19 hfn
  have hcnt : (clientUploadReqs A (hkdf salt P) n19 db.nextId pieces).length ≤ 128 := by
    rw [clientUploadReqs_length, chunksOf_length BLOCK_SIZE pieces.flatten BLOCK_SIZE_pos]
    have hdiv : pieces.flatten.length / BLOCK_SIZE ≤ 100 * 1024 * 1024 / BLOCK_SIZE :=
      Nat.div_le_div_right hsize
    have hten : 100 * 1024 * 1024 / BLOCK_SIZE = 10 := by decide
    omega
  obtain ⟨hprops, hpw⟩ := clientUploadReqs_props A (hkdf salt P) n19 db.nextId
    pieces 128 (by decide) hcnt
  obtain ⟨db2, hupall, hchunks2⟩ := uploadAll_ok db.nextId 128
    (by omega) hid2 (clientUploadReqs A (hkdf salt P) n19 db.nextId pieces)
    { files := db.files ++ [⟨db.nextId, A.enc (hkdf salt P) fnNonce N, salt, n19,
        fnNonce, false, false, true, now⟩],
      chunks := db.chunks, nextId := db.nextId + 1 }
    hprops hpw
    (by
      intro c hc hcid
      exact absurd hcid (hfresh c hc))
  have hdl : download db2 db.nextId
      = .ok ((clientUploadReqs A (hkdf salt P) n19 db.nextId pieces).map
          (fun r => r.content)) := by
    refine download_stored db2 db.nextId _ (by omega) ?_ ?_
    · have hlen := clientUploadReqs_length A (hkdf salt P) n19 db.nextId pieces
      intro hcon
      have hz : (clientUploadReqs A (hkdf salt P) n19 db.nextId pieces).length = 0 := by
        have := congrArg List.length hcon
        simpa using this
      omega
    · refine ⟨db.chunks, ?_, hfresh⟩
      rw [hchunks2, clientUploadReqs_rows]
  refine ⟨_, db2, (clientUploadReqs A (hkdf salt P) n19 db.nextId pieces).map
    (fun r => r.content), hprep, hupall, hdl, ?_⟩
  intro bodyPieces hbp
  exact clientDownload_of_upload A hA hkdf P salt n19 fnNonce N db.nextId
    pieces bodyPieces hbp

/-- Witness for C1 at a concrete instance: the toy AEAD, concatenation as
the KDF, a 3-byte file arriving in one piece, and an empty store. -/
theorem claim_C1_witness :
    ∃ db1 db2 conts,
      prepare_upload ⟨[], [], 1⟩ 0 (some (List.replicate 32 0))
          (some (List.replicate 19 0)) (some (List.replicate 24 0))
          (some (toyAead.enc ((fun s p => s ++ p) (List.replicate 32 0) [7])
            (List.replicate 24 0) [104, 105])) none = .ok (db1, (1 : Int))
      ∧ uploadAll db1 128 (clientUploadReqs toyAead
          ((fun s p => s ++ p) (List.replicate 32 0) [7])
          (List.replicate 19 0) 1 [[1, 2, 3]]) = .ok db2
      ∧ download db2 1 = .ok conts
      ∧ ∀ bodyPieces : List Bytes, bodyPieces.flatten = conts.flatten →
          clientFileDownload toyAead (fun s p => s ++ p) [7] (List.replicate 32 0)
              (List.replicate 19 0) (List.replicate 24 0)
              (toyAead.enc ((fun s p => s ++ p) (List.replicate 32 0) [7])
                (List.replicate 24 0) [104, 105]) bodyPieces
            = some (([[1, 2, 3]] : List Bytes).flatten, [104, 105]) :=
  claim_C1 toyAead toyAead_lawful (fun s p => s ++ p) [7] (List.replicate 32 0)
    (List.replicate 19 0) (List.replicate 24 0) [104, 105] [[1, 2, 3]]
    ⟨[], [], 1⟩ 0 (by simp) (by simp) (by simp) (by simp) (by decide) (by decide)
    (by simp)

theorem enumFrom_getElem (l : List Bytes) :
    ∀ (k i : Nat), (List.enumFrom k l)[i]? = (l[i]?).map fun a => (k + i, a) := by
  induction l with
  | nil => intro k i; simp
  | cons x rest ih =>
    intro k i
    cases i with
    | zero => simp [List.enumFrom]
    | succ i' =>
      simp only [List.enumFrom, List.getElem?_cons_succ, ih (k + 1) i']
      have harith : k + 1 + i' = k + (i' + 1) := by omega
      rw [harith]

/-- Claim C3.  The client encoder emits, in seq order starting at 1, one
non-last chunk of exactly `BLOCK_SIZE + 16` bytes per complete 10 MiB
plaintext block, then exactly one final `is_last = 1` chunk produced by
`encrypt_last` over the residual buffer; a file of exactly one block
yields two chunks of sizes `BLOCK_SIZE + 16` and 16. -/
theorem claim_C3 (A : Aead) (hA : LawfulAead A) (key n19 : Bytes) (idI : Int)
    (pieces : List Bytes) :
    (clientUploadReqs A key n19 idI pieces).length
        = pieces.flatten.length / BLOCK_SIZE + 1
    ∧ (∀ i, i < pieces.flatten.length / BLOCK_SIZE →
        ∃ c : Bytes, (clientUploadReqs A key n19 idI pieces)[i]?
            = some ⟨idI, Int.ofNat (i + 1), false, c⟩
          ∧ c.length = BLOCK_SIZE + 16)
    ∧ (clientUploadReqs A key n19 idI pieces)[pieces.flatten.length / BLOCK_SIZE]?
        = some ⟨idI, Int.ofNat (pieces.flatten.length / BLOCK_SIZE + 1), true,
            A.enc key (streamNonce n19 (pieces.flatten.length / BLOCK_SIZE) true)
              (remOf BLOCK_SIZE pieces.flatten)⟩
    ∧ (remOf BLOCK_SIZE pieces.flatten).length = pieces.flatten.length % BLOCK_SIZE
    ∧ (pieces.flatten.length = BLOCK_SIZE →
        (clientUploadReqs A key n19 idI pieces).length = 2
        ∧ (∃ c : Bytes, (clientUploadReqs A key n19 idI pieces)[0]?
              = some ⟨idI, Int.ofNat 1, false, c⟩ ∧ c.length = BLOCK_SIZE + 16)
        ∧ ∃ c2 : Bytes, (clientUploadReqs A key n19 idI pieces)[1]?
              = some ⟨idI, Int.ofNat 2, true, c2⟩ ∧ c2.length = 16) := by
  have hnil : ([] : Bytes).length < BLOCK_SIZE := by simpa using BLOCK_SIZE_pos
  have hn : (chunksOf BLOCK_SIZE pieces.flatten).length
      = pieces.flatten.length / BLOCK_SIZE :=
    chunksOf_length BLOCK_SIZE pieces.flatten BLOCK_SIZE_pos
  have hreqs : clientUploadReqs A key n19 idI pieces
      = ((ctsFrom A key n19 0 (chunksOf BLOCK_SIZE pieces.flatten)).enum.map
          fun p => (⟨idI, Int.ofNat (p.1 + 1), false, p.2⟩ : UploadReq))
        ++ [⟨idI,
              Int.ofNat ((ctsFrom A key n19 0 (chunksOf BLOCK_SIZE pieces.flatten)).length + 1),
              true,
              A.enc key
                (streamNonce n19 (chunksOf BLOCK_SIZE pieces.flatten).length true)
                (remOf BLOCK_SIZE pieces.flatten)⟩] := by
    simp [clientUploadReqs,
      encPieces_spec A key n19 BLOCK_SIZE BLOCK_SIZE_pos pieces 0 [] hnil]
  have hlen1 : (clientUploadReqs A key n19 idI pieces).length
      = pieces.flatten.length / BLOCK_SIZE + 1 := by
    rw [clientUploadReqs_length, hn]
  have hmaplen : ((ctsFrom A key n19 0 (chunksOf BLOCK_SIZE pieces.flatten)).enum.map
      fun p => (⟨idI, Int.ofNat (p.1 + 1), false, p.2⟩ : UploadReq)).length
      = pieces.flatten.length / BLOCK_SIZE := by
    rw [List.length_map, List.enum_length, ctsFrom_length, hn]
  have hmid : ∀ i, i < pieces.flatten.length / BLOCK_SIZE →
      ∃ c : Bytes, (clientUploadReqs A key n19 idI pieces)[i]?
          = some ⟨idI, Int.ofNat (i + 1), false, c⟩
        ∧ c.length = BLOCK_SIZE + 16 := by
    intro i hi
    have hi' : i < (ctsFrom A key n19 0 (chunksOf BLOCK_SIZE pieces.flatten)).length := by
      rw [ctsFrom_length, hn]
      exact hi
    refine ⟨(ctsFrom A key n19 0 (chunksOf BLOCK_SIZE pieces.flatten)).get ⟨i, hi'⟩,
      ?_, ?_⟩
    · rw [hreqs, List.getElem?_append_left (by rw [hmaplen]; exact hi), List.getElem?_map]
      rw [show (ctsFrom A key n19 0 (chunksOf BLOCK_SIZE pieces.flatten)).enum
        = List.enumFrom 0 (ctsFrom A key n19 0 (chunksOf BLOCK_SIZE pieces.flatten))
        from rfl]
      rw [enumFrom_getElem _ 0 i, List.getElem?_eq_getElem hi']
      simp
    · have hmem : (ctsFrom A key n19 0 (chunksOf BLOCK_SIZE pieces.flatten)).get ⟨i, hi'⟩
          ∈ ctsFrom A key n19 0 (chunksOf BLOCK_SIZE pieces.flatten) :=
        List.get_mem _ i hi'
      exact ctsFrom_mem_length A hA key n19 BLOCK_SIZE _
        (fun blk hblk => chunksOf_mem_length BLOCK_SIZE pieces.flatten blk hblk)
        0 _ hmem
  have hlast : (clientUploadReqs A key n19 idI pieces)[pieces.flatten.length / BLOCK_SIZE]?
      = some ⟨idI, Int.ofNat (pieces.flatten.length / BLOCK_SIZE + 1), true,
          A.enc key (streamNonce n19 (pieces.flatten.length / BLOCK_SIZE) true)
            (remOf BLOCK_SIZE pieces.flatten)⟩ := by
    rw [hreqs, List.getElem?_append_right (by rw [hmaplen])]
    rw [hmaplen]
    simp only [Nat.sub_self, List.getElem?_cons_zero, ctsFrom_length, hn]
  refine ⟨hlen1, hmid, hlast, remOf_length BLOCK_SIZE pieces.flatten BLOCK_SIZE_pos, ?_⟩
  intro hF
  have hone : pieces.flatten.length / BLOCK_SIZE = 1 := by
    rw [hF]
    exact Nat.div_self BLOCK_SIZE_pos
  refine ⟨by rw [hlen1, hone], ?_, ?_⟩
  · have := hmid 0 (by omega)
    simpa using this
  · refine ⟨A.enc key (streamNonce n19 (pieces.flatten.length / BLOCK_SIZE) true)
      (remOf BLOCK_SIZE pieces.flatten), ?_, ?_⟩
    · rw [← hone] at hlast ⊢
      rw [hlast, hone]
    · rw [hA.len, remOf_length BLOCK_SIZE pieces.flatten BLOCK_SIZE_pos, hF]
      simp

/-- Witness for C3: the toy AEAD on a 3-byte file delivered in two
pieces. -/
theorem claim_C3_witness :
    (clientUploadReqs toyAead [5] [6] 1 [[1], [2, 3]]).length
        = ([[1], [2, 3]] : List Bytes).flatten.length / BLOCK_SIZE + 1
    ∧ (∀ i, i < ([[1], [2, 3]] : List Bytes).flatten.length / BLOCK_SIZE →
        ∃ c : Bytes, (clientUploadReqs toyAead [5] [6] 1 [[1], [2, 3]])[i]?
            = some ⟨1, Int.ofNat (i + 1), false, c⟩
          ∧ c.length = BLOCK_SIZE + 16)
    ∧ (clientUploadReqs toyAead [5] [6] 1
        [[1], [2, 3]])[([[1], [2, 3]] : List Bytes).flatten.length / BLOCK_SIZE]?
        = some ⟨1, Int.ofNat (([[1], [2, 3]] : List Bytes).flatten.length / BLOCK_SIZE + 1),
            true,
            toyAead.enc [5]
              (streamNonce [6] (([[1], [2, 3]] : List Bytes).flatten.length / BLOCK_SIZE) true)
              (remOf BLOCK_SIZE ([[1], [2, 3]] : List Bytes).flatten)⟩
    ∧ (remOf BLOCK_SIZE ([[1], [2, 3]] : List Bytes).flatten).length
        = ([[1], [2, 3]] : List Bytes).flatten.length % BLOCK_SIZE
    ∧ (([[1], [2, 3]] : List Bytes).flatten.length = BLOCK_SIZE →
        (clientUploadReqs toyAead [5] [6] 1 [[1], [2, 3]]).length = 2
        ∧ (∃ c : Bytes, (clientUploadReqs toyAead [5] [6] 1 [[1], [2, 3]])[0]?
              = some ⟨1, Int.ofNat 1, false, c⟩ ∧ c.length = BLOCK_SIZE + 16)
        ∧ ∃ c2 : Bytes, (clientUploadReqs toyAead [5] [6] 1 [[1], [2, 3]])[1]?
              = some ⟨1, Int.ofNat 2, true, c2⟩ ∧ c2.length = 16) :=
  claim_C3 toyAead toyAead_lawful [5] [6] 1 [[1], [2, 3]]

def exceptDecEq {ε α : Type} [DecidableEq ε] [DecidableEq α] :
    (a b : Except ε α) → Decidable (a = b)
  | .error e, .error e' =>
    if h : e = e' then .isTrue (by rw [h])
    else .isFalse (fun hc => h (Except.error.inj hc))
  | .error _, .ok _ => .isFalse (fun hc => Except.noConfusion hc)
  | .ok _, .error _ => .isFalse (fun hc => Except.noConfusion hc)
  | .ok x, .ok y =>
    if h : x = y then .isTrue (by rw [h])
    else .isFalse (fun hc => h (Except.ok.inj hc))

instance {ε α : Type} [DecidableEq ε] [DecidableEq α] : DecidableEq (Except ε α) :=
  exceptDecEq

/-- Claim C4, counterexample.  A `seq` field of eight zero bytes (the
encoding of 0, which is not positive) passes ingress validation: the
request succeeds and a chunk row with `seq = 0` is inserted, where the
claim demands a 400 with no insert. -/
theorem claim_C4_counterexample :
    upload ⟨[], [], 1⟩ 128 (some [0, 0, 0, 0, 0, 0, 0, 1])
        (some [0, 0, 0, 0, 0, 0, 0, 0]) (some [0]) (some [7])
      = .ok ⟨[], [⟨1, 0, [7]⟩], 1⟩ := by
  decide

/-- Claim C4, amended.  The ingress check compares the unsigned 64-bit
reinterpretation of the 8-byte `seq` field against `chunk_count_limit`:
any seq whose u64 value exceeds the limit is rejected with 400 before any
insert; in particular every negative `i64` seq is rejected whenever
`chunk_count_limit < 2^63`.  `seq = 0`, however, passes ingress (see the
counterexample). -/
theorem claim_C4 (db : DB) (limit : Nat) (id is_last content : Option Bytes)
    (s : Bytes) :
    (limit < beU64 s →
      upload db limit id (some s) is_last content = .error BAD_REQUEST)
    ∧ (s.length = 8 → i64ofBE s < 0 → limit < 2 ^ 63 →
      upload db limit id (some s) is_last content = .error BAD_REQUEST) := by
  have main : limit < beU64 s →
      upload db limit id (some s) is_last content = .error BAD_REQUEST := by
    intro h
    have hd : (decide (limit < beU64 s)) = true := decide_eq_true h
    simp [upload, Option.any_some, hd]
  refine ⟨main, ?_⟩
  intro _ hneg hlim
  refine main ?_
  by_contra hcon
  have hlt : beU64 s < 2 ^ 63 := by omega
  rw [i64ofBE] at hneg
  simp only [hlt, if_true] at hneg
  omega

/-- Witness for C4 at the byte encoding of `-1` (all `0xFF`), with the
default `chunk_count_limit = 128`. -/
theorem claim_C4_witness :
    (128 < beU64 [255, 255, 255, 255, 255, 255, 255, 255] →
      upload ⟨[], [], 1⟩ 128 (some [0, 0, 0, 0, 0, 0, 0, 1])
          (some [255, 255, 255, 255, 255, 255, 255, 255]) (some [0]) (some [7])
        = .error BAD_REQUEST)
    ∧ (([255, 255, 255, 255, 255, 255, 255, 255] : Bytes).length = 8 →
      i64ofBE [255, 255, 255, 255, 255, 255, 255, 255] < 0 → 128 < 2 ^ 63 →
      upload ⟨[], [], 1⟩ 128 (some [0, 0, 0, 0, 0, 0, 0, 1])
          (some [255, 255, 255, 255, 255, 255, 255, 255]) (some [0]) (some [7])
        = .error BAD_REQUEST) :=
  claim_C4 ⟨[], [], 1⟩ 128 (some [0, 0, 0, 0, 0, 0, 0, 1]) (some [0]) (some [7])
    [255, 255, 255, 255, 255, 255, 255, 255]

/-- Claim C5, counterexample.  With a chunk of seq 2 already accepted for
file 1, a later upload with seq 1 (`seq ≤ max previously accepted`, not a
duplicate) succeeds, where the claim demands failure. -/
theorem claim_C5_counterexample :
    upload ⟨[], [⟨1, 2, [9]⟩], 2⟩ 128 (some [0, 0, 0, 0, 0, 0, 0, 1])
        (some [0, 0, 0, 0, 0, 0, 0, 1]) (some [0]) (some [5])
      = .ok ⟨[], [⟨1, 2, [9]⟩, ⟨1, 1, [5]⟩], 2⟩ := by
  decide

/-- Claim C5, amended.  The server enforces no seq monotonicity or
contiguity: a well-formed upload fails with 500 exactly when it repeats
an already-stored `(file_id, seq)` pair (the uniqueness constraint);
any fresh pair succeeds, seq below the maximum included. -/
theorem claim_C5 (db : DB) (limit : Nat) (ids seqs lb cb : Bytes)
    (hid : ids.length = 8) (hseq : seqs.length = 8)
    (hlim : ¬ limit < beU64 seqs) (hlb : lb.length = 1) :
    ((db.chunks.any fun ch => ch.fileId == i64ofBE ids && ch.seq == i64ofBE seqs)
        = true →
      upload db limit (some ids) (some seqs) (some lb) (some cb)
        = .error INTERNAL_SERVER_ERROR)
    ∧ ((db.chunks.any fun ch => ch.fileId == i64ofBE ids && ch.seq == i64ofBE seqs)
        = false →
      ∃ db', upload db limit (some ids) (some seqs) (some lb) (some cb)
        = .ok db') := by
  have hd : (decide (limit < beU64 seqs)) = false := decide_eq_false hlim
  constructor
  · intro hdup
    simp [upload, Option.any_some, hid, hseq, hlb, hd, hdup]
  · intro hdup
    have hdup' : ¬ ((db.chunks.any fun ch =>
        ch.fileId == i64ofBE ids && ch.seq == i64ofBE seqs) = true) := by
      rw [hdup]
      exact Bool.false_ne_true
    simp [upload, Option.any_some, hid, hseq, hlb, hlim, hdup']
    split
    · exact ⟨_, rfl⟩
    · exact ⟨_, rfl⟩

/-- Witness for C5: a duplicate `(1, 2)` is refused with 500, and the
fresh `(1, 1)` below the maximum is accepted. -/
theorem claim_C5_witness :
    ((DB.chunks ⟨[], [⟨1, 2, [9]⟩], 2⟩).any
        (fun ch => ch.fileId == i64ofBE [0, 0, 0, 0, 0, 0, 0, 1]
          && ch.seq == i64ofBE [0, 0, 0, 0, 0, 0, 0, 2]) = true →
      upload ⟨[], [⟨1, 2, [9]⟩], 2⟩ 128 (some [0, 0, 0, 0, 0, 0, 0, 1])
          (some [0, 0, 0, 0, 0, 0, 0, 2]) (some [0]) (some [5])
        = .error INTERNAL_SERVER_ERROR)
    ∧ ((DB.chunks ⟨[], [⟨1, 2, [9]⟩], 2⟩).any
        (fun ch => ch.fileId == i64ofBE [0, 0, 0, 0, 0, 0, 0, 1]
          && ch.seq == i64ofBE [0, 0, 0, 0, 0, 0, 0, 2]) = false →
      ∃ db', upload ⟨[], [⟨1, 2, [9]⟩], 2⟩ 128 (some [0, 0, 0, 0, 0, 0, 0, 1])
          (some [0, 0, 0, 0, 0, 0, 0, 2]) (some [0]) (some [5]) = .ok db') :=
  claim_C5 ⟨[], [⟨1, 2, [9]⟩], 2⟩ 128 [0, 0, 0, 0, 0, 0, 0, 1]
    [0, 0, 0, 0, 0, 0, 0, 2] [0] [5] (by decide) (by decide) (by decide) (by decide)

/-- Claim C6, counterexample.  A 24-byte nonce with `is_text = 0` (file
mode) is accepted by `prepare_upload`, where the claim demands a 400 for
the mode/nonce-length mismatch. -/
theorem claim_C6_counterexample :
    prepare_upload ⟨[], [], 1⟩ 0 (some (List.replicate 32 0))
        (some (List.replicate 24 1)) (some (List.replicate 24 2)) (some [3])
        (some [0])
      = .ok (⟨[⟨1, [3], List.replicate 32 0, List.replicate 24 1,
          List.replicate 24 2, false, false, true, 0⟩], [], 2⟩, 1) := by
  decide

/-- Claim C6, amended.  `prepare_upload` checks only that the nonce is 19
or 24 bytes long; it never cross-checks the length against `is_text`.
Any other length gives 400, and any 19- or 24-byte nonce is accepted in
either mode when the remaining fields are valid. -/
theorem claim_C6 (db : DB) (now : Int) (salt nn fnn fname itb : Bytes) :
    (nn.length ≠ 19 → nn.length ≠ 24 →
      ∀ s fn f it, prepare_upload db now s (some nn) fn f it = .error BAD_REQUEST)
    ∧ (salt.length = 32 → fnn.length = 24 → itb.length = 1 →
      nn.length = 19 ∨ nn.length = 24 →
      ∃ p, prepare_upload db now (some salt) (some nn) (some fnn) (some fname)
        (some itb) = .ok p) := by
  constructor
  · intro h19 h24 s fn f it
    simp [prepare_upload, Option.any_some, h19, h24]
  · intro hs hfn hit hnn
    have hnonce : (nn.length != 19 && nn.length != 24) = false := by
      rcases hnn with h | h <;> simp [h]
    simp [prepare_upload, Option.any_some, hs, hfn, hit, hnonce]

/-- Witness for C6: a 21-byte nonce is rejected, and both mismatched
combinations (24-byte nonce with `is_text = 0`, 19-byte nonce with
`is_text = 1`) are accepted. -/
theorem claim_C6_witness :
    ((List.replicate 21 0 : Bytes).length ≠ 19 →
      (List.replicate 21 0 : Bytes).length ≠ 24 →
      ∀ s fn f it, prepare_upload ⟨[], [], 1⟩ 0 s (some (List.replicate 21 0)) fn f it
        = .error BAD_REQUEST)
    ∧ (∃ p, prepare_upload ⟨[], [], 1⟩ 0 (some (List.replicate 32 0))
        (some (List.replicate 24 1)) (some (List.replicate 24 2)) (some [3])
        (some [0]) = .ok p)
    ∧ (∃ p, prepare_upload ⟨[], [], 1⟩ 0 (some (List.replicate 32 0))
        (some (List.replicate 19 1)) (some (List.replicate 24 2)) (some [3])
        (some [1]) = .ok p) :=
  ⟨(claim_C6 ⟨[], [], 1⟩ 0 (List.replicate 32 0) (List.replicate 21 0)
      (List.replicate 24 2) [3] [0]).1,
   (claim_C6 ⟨[], [], 1⟩ 0 (List.replicate 32 0) (List.replicate 24 1)
      (List.replicate 24 2) [3] [0]).2 (by decide) (by decide) (by decide)
      (Or.inr (by decide)),
   (claim_C6 ⟨[], [], 1⟩ 0 (List.replicate 32 0) (List.replicate 19 1)
      (List.replicate 24 2) [3] [1]).2 (by decide) (by decide) (by decide)
      (Or.inl (by decide))⟩

/-- Claim C10.  The upload handler validates only the byte length of the
`id` field and never its sign or existence: it can return 400 or 500 but
never 404, and for any well-formed request over a fresh `(file_id, seq)`
pair a chunk row is inserted under the decoded `i64` id, whatever it is;
when the insert violates uniqueness the response is 500. -/
theorem claim_C10 :
    (∀ db limit a b c d, upload db limit a b c d ≠ .error NOT_FOUND)
    ∧ (∀ (db : DB) (limit : Nat) (ids seqs lb cb : Bytes),
        ids.length = 8 → seqs.length = 8 → ¬ limit < beU64 seqs → lb.length = 1 →
        (db.chunks.any fun ch => ch.fileId == i64ofBE ids && ch.seq == i64ofBE seqs)
          = false →
        ∃ db', upload db limit (some ids) (some seqs) (some lb) (some cb) = .ok db'
          ∧ (⟨i64ofBE ids, i64ofBE seqs, cb⟩ : ChunkRow) ∈ db'.chunks)
    ∧ (∀ (db : DB) (limit : Nat) (ids seqs lb cb : Bytes),
        ids.length = 8 → seqs.length = 8 → ¬ limit < beU64 seqs → lb.length = 1 →
        (db.chunks.any fun ch => ch.fileId == i64ofBE ids && ch.seq == i64ofBE seqs)
          = true →
        upload db limit (some ids) (some seqs) (some lb) (some cb)
          = .error INTERNAL_SERVER_ERROR) := by
  refine ⟨?_, ?_, ?_⟩
  · intro db limit a b c d
    simp only [upload]
    repeat' split
    all_goals intro hcon
    all_goals first
    | exact Except.noConfusion hcon
    | exact absurd (Except.error.inj hcon) (by decide)
  · intro db limit ids seqs lb cb hid hseq hlim hlb hdup
    have hdup' : ¬ ((db.chunks.any fun ch =>
        ch.fileId == i64ofBE ids && ch.seq == i64ofBE seqs) = true) := by
      rw [hdup]
      exact Bool.false_ne_true
    simp [upload, Option.any_some, hid, hseq, hlb, hlim, hdup']
    split
    · exact ⟨_, rfl, by simp⟩
    · exact ⟨_, rfl, by simp⟩
  · intro db limit ids seqs lb cb hid hseq hlim hlb hdup
    have hd : (decide (limit < beU64 seqs)) = false := decide_eq_false hlim
    simp [upload, Option.any_some, hid, hseq, hlb, hd, hdup]

/-- Witness for C10: a chunk row is stored under id `-1` (all-`0xFF` id
field), which `prepare_upload` can never have issued. -/
theorem claim_C10_witness :
    ∃ db', upload ⟨[], [], 1⟩ 128 (some [255, 255, 255, 255, 255, 255, 255, 255])
        (some [0, 0, 0, 0, 0, 0, 0, 1]) (some [1]) (some [42]) = .ok db'
      ∧ (⟨i64ofBE [255, 255, 255, 255, 255, 255, 255, 255],
          i64ofBE [0, 0, 0, 0, 0, 0, 0, 1], [42]⟩ : ChunkRow) ∈ db'.chunks :=
  claim_C10.2.1 ⟨[], [], 1⟩ 128 [255, 255, 255, 255, 255, 255, 255, 255]
    [0, 0, 0, 0, 0, 0, 0, 1] [1] [42] (by decide) (by decide) (by decide)
    (by decide) (by decide)

/-- Claim C2, counterexample.  On an absent id the `download` handler
answers 500, not the 404 the claim demands (the empty `MAX(seq)` result
set is mapped to `INTERNAL_SERVER_ERROR`). -/
theorem claim_C2_counterexample :
    download ⟨[], [], 1⟩ 1 = .error INTERNAL_SERVER_ERROR
    ∧ download ⟨[], [], 1⟩ 1 ≠ .error NOT_FOUND := by
  decide

/-- Claim C2, amended.  `metadata` answers 404 exactly for ids without a
completed row (absent or `upload_complete = false`); but `download` does
not consult the `files` table at all and answers 500 when the id has no
chunk rows (absent, or expired with chunks deleted), and `metadata` on a
GC-expired id whose row is still complete answers 500 (the `NULL`
`SUM(length(content))` fails the `i64` column read). -/
theorem claim_C2 :
    (∀ (db : DB) (id : Int), 0 < id → findFile db id = none →
      metadata db id = .error NOT_FOUND)
    ∧ (∀ (db : DB) (id : Int), 0 < id →
      (db.chunks.filter fun c => c.fileId == id) = [] →
      download db id = .error INTERNAL_SERVER_ERROR)
    ∧ (∀ (db : DB) (id : Int) (f : FileRow), 0 < id → findFile db id = some f →
      (db.chunks.filter fun c => c.fileId == id) = [] →
      metadata db id = .error INTERNAL_SERVER_ERROR) := by
  refine ⟨?_, ?_, ?_⟩
  · intro db id hpos hfind
    rw [metadata, if_neg (by omega), hfind]
  · intro db id hpos hfilter
    rw [download, if_neg (by omega),
      show maxSeq db id = none from by rw [maxSeq, hfilter]; rfl]
  · intro db id f hpos hfind hfilter
    rw [metadata, if_neg (by omega), hfind,
      show sqlSize db id = none from by simp [sqlSize, hfilter]]

/-- Witness for C2: an id with only an incomplete row gets 404 from
`metadata`; an absent id gets 500 from `download`; a completed row whose
chunks were deleted by GC gets 500 from `metadata`. -/
theorem claim_C2_witness :
    metadata ⟨[⟨1, [], [], [], [], false, false, true, 0⟩], [], 2⟩ 1
        = .error NOT_FOUND
    ∧ download ⟨[], [], 1⟩ 2 = .error INTERNAL_SERVER_ERROR
    ∧ metadata ⟨[⟨1, [], [], [], [], true, true, false, 0⟩], [], 2⟩ 1
        = .error INTERNAL_SERVER_ERROR :=
  ⟨claim_C2.1 ⟨[⟨1, [], [], [], [], false, false, true, 0⟩], [], 2⟩ 1
      (by decide) (by decide),
   claim_C2.2.1 ⟨[], [], 1⟩ 2 (by decide) (by decide),
   claim_C2.2.2 ⟨[⟨1, [], [], [], [], true, true, false, 0⟩], [], 2⟩ 1
      ⟨1, [], [], [], [], true, true, false, 0⟩ (by decide) (by decide) (by decide)⟩

/-- The `files` list produced by a successful `prepare_upload` is the old
list plus one row with `upload_complete = false`, whatever the inputs. -/
theorem prepare_upload_files_shape (db : DB) (now : Int)
    (s n fn f it : Option Bytes) (p : DB × Int)
    (h : prepare_upload db now s n fn f it = .ok p) :
    ∃ r, p.1.files = db.files ++ [r] ∧ r.uploadComplete = false := by
  simp only [prepare_upload] at h
  repeat' split at h
  all_goals first
  | exact Except.noConfusion h
  | (cases Except.ok.inj h; exact ⟨_, rfl, rfl⟩)

/-- The effect of a successful `upload`: the chunk row is appended, and
`upload_complete` is flipped for the file's rows exactly when the
`is_last` byte is nonzero — both in the single returned state. -/
theorem upload_effect_shape (db : DB) (limit : Nat) (ids seqs cb : Bytes)
    (fl : Nat) (db' : DB)
    (h : upload db limit (some ids) (some seqs) (some [fl]) (some cb) = .ok db') :
    db'.chunks = db.chunks ++ [⟨i64ofBE ids, i64ofBE seqs, cb⟩]
    ∧ (fl ≠ 0 → db'.files = db.files.map fun f =>
        if f.fid == i64ofBE ids then { f with uploadComplete := true } else f)
    ∧ (fl = 0 → db'.files = db.files) := by
  simp only [upload] at h
  repeat' split at h
  all_goals try exact Except.noConfusion h
  · rename_i hlast
    cases Except.ok.inj h
    exact ⟨by simp, fun _ => by simp, fun h0 => absurd h0 (by simpa using hlast)⟩
  · rename_i hlast
    cases Except.ok.inj h
    exact ⟨by simp, fun hne => absurd (by simpa using hlast) hne, fun _ => by simp⟩

/-- Claim C7.  A file row starts with `upload_complete = false` at
creation (schema default, modelled from the spec), and an `upload`
request sets it to true exactly when its `is_last` byte is nonzero; the
chunk insert and the flag update land in the same returned state (one
transaction). -/
theorem claim_C7 :
    (∀ (db : DB) (now : Int) (s n fn f it : Option Bytes) (p : DB × Int),
      prepare_upload db now s n fn f it = .ok p →
      ∃ r, p.1.files = db.files ++ [r] ∧ r.uploadComplete = false)
    ∧ (∀ (db : DB) (limit : Nat) (ids seqs cb : Bytes) (fl : Nat) (db' : DB),
      upload db limit (some ids) (some seqs) (some [fl]) (some cb) = .ok db' →
      db'.chunks = db.chunks ++ [⟨i64ofBE ids, i64ofBE seqs, cb⟩]
      ∧ (fl ≠ 0 → db'.files = db.files.map fun f =>
          if f.fid == i64ofBE ids then { f with uploadComplete := true } else f)
      ∧ (fl = 0 → db'.files = db.files)) := by
  constructor
  · exact prepare_upload_files_shape
  · intro db limit ids seqs cb fl db' h
    exact upload_effect_shape db limit ids seqs cb fl db' h

/-- Witness for C7: a concrete text-mode `prepare_upload` creates an
incomplete row, and a concrete `upload` with `is_last = 1` both stores
the chunk and completes the file in one state. -/
theorem claim_C7_witness :
    (∃ r, (DB.files ⟨[⟨1, [], List.replicate 32 0, List.replicate 24 1, [], true,
          false, true, 0⟩], [], 2⟩)
        = ([] : List FileRow) ++ [r] ∧ r.uploadComplete = false)
    ∧ ((DB.chunks ⟨[⟨1, [], [], [], [], false, true, true, 0⟩],
          [⟨1, 1, [9]⟩], 1⟩)
        = ([] : List ChunkRow) ++ [⟨i64ofBE [0, 0, 0, 0, 0, 0, 0, 1],
            i64ofBE [0, 0, 0, 0, 0, 0, 0, 1], [9]⟩]
      ∧ ((1 : Nat) ≠ 0 → (DB.files ⟨[⟨1, [], [], [], [], false, true, true, 0⟩],
            [⟨1, 1, [9]⟩], 1⟩)
          = ([⟨1, [], [], [], [], false, false, true, 0⟩] : List FileRow).map
              fun f => if f.fid == i64ofBE [0, 0, 0, 0, 0, 0, 0, 1] then
                { f with uploadComplete := true } else f)
      ∧ ((1 : Nat) = 0 → (DB.files ⟨[⟨1, [], [], [], [], false, true, true, 0⟩],
            [⟨1, 1, [9]⟩], 1⟩)
          = [⟨1, [], [], [], [], false, false, true, 0⟩])) :=
  ⟨claim_C7.1 ⟨[], [], 1⟩ 0 (some (List.replicate 32 0))
      (some (List.replicate 24 1)) none none (some [1])
      (⟨[⟨1, [], List.replicate 32 0, List.replicate 24 1, [], true, false, true,
        0⟩], [], 2⟩, 1) (by decide),
   claim_C7.2 ⟨[⟨1, [], [], [], [], false, false, true, 0⟩], [], 1⟩ 128
      [0, 0, 0, 0, 0, 0, 0, 1] [0, 0, 0, 0, 0, 0, 0, 1] [9] 1
      ⟨[⟨1, [], [], [], [], false, true, true, 0⟩], [⟨1, 1, [9]⟩], 1⟩
      (by decide)⟩

theorem containsInt_iff (l : List Int) (a : Int) : l.contains a = true ↔ a ∈ l :=
  List.elem_iff

/-- Claim C8, counterexample.  A file past expiry (`created_at = 0`,
`now = 100`, `expiry = 1`) that has no chunk rows keeps
`available = true` after a GC tick: the worker only flips `available`
for ids returned by the chunk deletion, and a chunk-less file returns
none.  The claim demands `available = false` for every expired file. -/
theorem claim_C8_counterexample :
    delete_expired ⟨[⟨1, [], [], [], [], false, false, true, 0⟩], [], 2⟩ 100 1
      = ⟨[⟨1, [], [], [], [], false, false, true, 0⟩], [], 2⟩ := by
  decide

/-- Claim C8, amended.  On a GC tick, every chunk row whose owning file
is past expiry is deleted and every other chunk row survives; a file
past expiry gets `available = false` provided it had at least one chunk
row; files not past expiry are unchanged (under unique file ids).  All
effects are in the single returned state (one transaction). -/
theorem claim_C8 (db : DB) (now expiry : Int) :
    (∀ c ∈ db.chunks,
      (∃ f ∈ db.files, f.fid = c.fileId ∧ now > f.createdAt + expiry) →
      c ∉ (delete_expired db now expiry).chunks)
    ∧ (∀ c ∈ db.chunks,
      (¬ ∃ f ∈ db.files, f.fid = c.fileId ∧ now > f.createdAt + expiry) →
      c ∈ (delete_expired db now expiry).chunks)
    ∧ (∀ f ∈ db.files, now > f.createdAt + expiry →
      (∃ c ∈ db.chunks, c.fileId = f.fid) →
      { f with available := false } ∈ (delete_expired db now expiry).files)
    ∧ ((db.files.map fun f => f.fid).Nodup →
      ∀ f ∈ db.files, ¬ now > f.createdAt + expiry →
      f ∈ (delete_expired db now expiry).files) := by
  refine ⟨?_, ?_, ?_, ?_⟩
  · intro c hc ⟨f, hf, hfid, hexp⟩ hmem
    simp only [delete_expired, List.mem_filter, Bool.not_eq_true'] at hmem
    have hin : ((db.files.filter fun f => now > f.createdAt + expiry).map
        fun f => f.fid).contains c.fileId = true :=
      (containsInt_iff _ _).mpr
        (List.mem_map.mpr ⟨f, List.mem_filter.mpr ⟨hf, by simpa using hexp⟩, hfid⟩)
    rw [hmem.2] at hin
    exact Bool.noConfusion hin
  · intro c hc hnone
    simp only [delete_expired, List.mem_filter, Bool.not_eq_true']
    refine ⟨hc, ?_⟩
    cases hcon : (db.files.filter fun f => now > f.createdAt + expiry).map
        (fun f => f.fid) |>.contains c.fileId with
    | false => rfl
    | true =>
      exfalso
      rw [containsInt_iff] at hcon
      obtain ⟨f, hfmem, hfid⟩ := List.mem_map.mp hcon
      obtain ⟨hf, hexp⟩ := List.mem_filter.mp hfmem
      exact hnone ⟨f, hf, hfid, by simpa using hexp⟩
  · intro f hf hexp ⟨c, hc, hcfid⟩
    simp only [delete_expired]
    have hcontains : (((db.chunks.filter fun c =>
        ((db.files.filter fun f => now > f.createdAt + expiry).map
          fun f => f.fid).contains c.fileId).map fun c => c.fileId).dedup).contains
        f.fid = true := by
      rw [containsInt_iff, List.mem_dedup]
      refine List.mem_map.mpr ⟨c, ?_, hcfid⟩
      refine List.mem_filter.mpr ⟨hc, ?_⟩
      exact (containsInt_iff _ _).mpr
        (List.mem_map.mpr ⟨f, List.mem_filter.mpr ⟨hf, by simpa using hexp⟩,
          hcfid.symm ▸ rfl⟩)
    refine List.mem_map.mpr ⟨f, hf, ?_⟩
    rw [if_pos hcontains]
  · intro hnodup f hf hexp
    simp only [delete_expired]
    refine List.mem_map.mpr ⟨f, hf, ?_⟩
    rw [if_neg ?_]
    intro hcontains
    rw [containsInt_iff, List.mem_dedup] at hcontains
    obtain ⟨c, hcmem, hcfid⟩ := List.mem_map.mp hcontains
    obtain ⟨hc, hcexp⟩ := List.mem_filter.mp hcmem
    rw [containsInt_iff] at hcexp
    obtain ⟨f', hf', hfid'⟩ := List.mem_map.mp hcexp
    obtain ⟨hf'mem, hf'exp⟩ := List.mem_filter.mp hf'
    have hff : f' = f :=
      List.inj_on_of_nodup_map hnodup hf'mem hf (by rw [hfid', hcfid])
    rw [hff] at hf'exp
    exact hexp (by simpa using hf'exp)

/-- Witness for C8: with an expired file 1 (one chunk), a live file 2
(one chunk), `now = 100`, `expiry = 1`: file 1's chunk is deleted and
its row goes `available = false`; file 2's chunk and row are
untouched. -/
theorem claim_C8_witness :
    ((⟨1, 1, [7]⟩ : ChunkRow) ∉ (delete_expired
        ⟨[⟨1, [], [], [], [], false, true, true, 0⟩,
          ⟨2, [], [], [], [], false, true, true, 99⟩],
         [⟨1, 1, [7]⟩, ⟨2, 1, [8]⟩], 3⟩ 100 1).chunks)
    ∧ ((⟨2, 1, [8]⟩ : ChunkRow) ∈ (delete_expired
        ⟨[⟨1, [], [], [], [], false, true, true, 0⟩,
          ⟨2, [], [], [], [], false, true, true, 99⟩],
         [⟨1, 1, [7]⟩, ⟨2, 1, [8]⟩], 3⟩ 100 1).chunks)
    ∧ ((⟨1, [], [], [], [], false, true, false, 0⟩ : FileRow) ∈ (delete_expired
        ⟨[⟨1, [], [], [], [], false, true, true, 0⟩,
          ⟨2, [], [], [], [], false, true, true, 99⟩],
         [⟨1, 1, [7]⟩, ⟨2, 1, [8]⟩], 3⟩ 100 1).files)
    ∧ ((⟨2, [], [], [], [], false, true, true, 99⟩ : FileRow) ∈ (delete_expired
        ⟨[⟨1, [], [], [], [], false, true, true, 0⟩,
          ⟨2, [], [], [], [], false, true, true, 99⟩],
         [⟨1, 1, [7]⟩, ⟨2, 1, [8]⟩], 3⟩ 100 1).files) :=
  ⟨(claim_C8 ⟨[⟨1, [], [], [], [], false, true, true, 0⟩,
        ⟨2, [], [], [], [], false, true, true, 99⟩],
       [⟨1, 1, [7]⟩, ⟨2, 1, [8]⟩], 3⟩ 100 1).1 ⟨1, 1, [7]⟩ (by decide)
      ⟨⟨1, [], [], [], [], false, true, true, 0⟩, by decide, by decide, by decide⟩,
   (claim_C8 ⟨[⟨1, [], [], [], [], false, true, true, 0⟩,
        ⟨2, [], [], [], [], false, true, true, 99⟩],
       [⟨1, 1, [7]⟩, ⟨2, 1, [8]⟩], 3⟩ 100 1).2.1 ⟨2, 1, [8]⟩ (by decide) (by decide),
   (claim_C8 ⟨[⟨1, [], [], [], [], false, true, true, 0⟩,
        ⟨2, [], [], [], [], false, true, true, 99⟩],
       [⟨1, 1, [7]⟩, ⟨2, 1, [8]⟩], 3⟩ 100 1).2.2.1
      ⟨1, [], [], [], [], false, true, true, 0⟩ (by decide) (by decide)
      ⟨⟨1, 1, [7]⟩, by decide, by decide⟩,
   (claim_C8 ⟨[⟨1, [], [], [], [], false, true, true, 0⟩,
        ⟨2, [], [], [], [], false, true, true, 99⟩],
       [⟨1, 1, [7]⟩, ⟨2, 1, [8]⟩], 3⟩ 100 1).2.2.2 (by decide)
      ⟨2, [], [], [], [], false, true, true, 99⟩ (by decide) (by decide)⟩

/-- Claim C9.  A text-mode `prepare_upload` (no `filename` or
`filename_nonce` field) stores both columns as empty byte strings, not
null (`unwrap_or_default`), and `metadata` on such a row serializes both
as the base64 of the empty string, `""`. -/
theorem claim_C9 :
    (∀ (db : DB) (now : Int) (s nn : Bytes) (b : Nat),
      s.length = 32 → nn.length = 24 → b ≠ 0 →
      ∃ db1, prepare_upload db now (some s) (some nn) none none (some [b])
          = .ok (db1, db.nextId)
        ∧ ∃ r, db1.files = db.files ++ [r] ∧ r.filename = []
            ∧ r.filenameNonce = [] ∧ r.isText = true)
    ∧ (∀ (db : DB) (id : Int) (f : FileRow) (sz : Int), 0 < id →
      findFile db id = some f → f.filename = [] → f.filenameNonce = [] →
      sqlSize db id = some sz →
      ∃ w, metadataWire db id = .ok w ∧ w.filename = "" ∧ w.filenameNonce = ""
        ∧ w.size = sz)
    ∧ base64encode ([] : Bytes) = "" := by
  refine ⟨?_, ?_, rfl⟩
  · intro db now s nn b hs hnn hb
    have hb' : (b != 0) = true := by simpa using hb
    simp [prepare_upload, Option.any_some, hs, hnn, hb']
  · intro db id f sz hpos hfind hfn hfnn hsize
    rw [metadataWire, metadata, if_neg (by omega), hfind, hsize]
    exact ⟨_, rfl, by rw [hfn]; rfl, by rw [hfnn]; rfl, rfl⟩

/-- Witness for C9: a concrete text-mode prepare stores empty filename
columns, and `metadata` on a completed text row returns `""` for both. -/
theorem claim_C9_witness :
    (∃ db1, prepare_upload ⟨[], [], 1⟩ 0 (some (List.replicate 32 0))
        (some (List.replicate 24 1)) none none (some [1]) = .ok (db1, (1 : Int))
      ∧ ∃ r, db1.files = ([] : List FileRow) ++ [r] ∧ r.filename = []
          ∧ r.filenameNonce = [] ∧ r.isText = true)
    ∧ (∃ w, metadataWire ⟨[⟨1, [], List.replicate 32 0, List.replicate 24 1, [],
          true, true, true, 0⟩], [⟨1, 1, [9, 9]⟩], 2⟩ 1 = .ok w
        ∧ w.filename = "" ∧ w.filenameNonce = "" ∧ w.size = 2) :=
  ⟨claim_C9.1 ⟨[], [], 1⟩ 0 (List.replicate 32 0) (List.replicate 24 1) 1
      (by decide) (by decide) (by decide),
   claim_C9.2.1 ⟨[⟨1, [], List.replicate 32 0, List.replicate 24 1, [],
        true, true, true, 0⟩], [⟨1, 1, [9, 9]⟩], 2⟩ 1
      ⟨1, [], List.replicate 32 0, List.replicate 24 1, [], true, true, true, 0⟩ 2
      (by decide) (by decide) (by decide) (by decide) (by decide)⟩

end Hako
